import Mathlib

/-!
OneBadApple: a token ring of processes connected by pipes.

A shallow embedding of `OneBadApple.c` and a verification of its ring
protocol: the `readn` retry loop, the descriptor wiring performed after
`fork`, the per-node message policy of `childLoop` and of the parent
(node 0) loop, and the ring as a whole as an interleaved transition system
over pipes.
-/

namespace OneBadApple

/-! ## Message record -/

/-- The source's `#define MAXMSG 512`. -/
def MAXMSG : Nat := 512

/-- The source's `Message` struct: `int dest; int len; char text[MAXMSG]`.
The body is the list of the bytes of `text`. -/
structure Message where
  dest : Int
  len : Int
  text : List Nat
deriving DecidableEq, Repr

/-! ## readn -/

/-- One outcome of a call `read(fd, p, left)`. -/
inductive ReadOutcome where
  /-- The call returned a negative value with `errno == EINTR`. -/
  | eintr
  /-- The call returned a negative value with another `errno`. -/
  | failure
  /-- The call returned 0. -/
  | eof
  /-- The call delivered bytes; the kernel hands over at most `left` of them. -/
  | bytes (bs : List Nat)
deriving DecidableEq, Repr

/-- The `while (left > 0)` loop of `readn`, run against a script holding the
outcome of each successive `read` call. `buf` is what has been stored through
`p` so far. The result is the return value together with the stored bytes;
`none` means the script ran out while the loop was still asking for bytes
(the call is still blocked). -/
def readnLoop (n : Nat) : List ReadOutcome → Nat → List Nat → Option (Int × List Nat)
  | [], left, buf => if 0 < left then none else some (((n - left : Nat) : Int), buf)
  | o :: script, left, buf =>
    if 0 < left then
      match o with
      | .eintr => readnLoop n script left buf
      | .failure => some (-1, buf)
      | .eof => some (((n - left : Nat) : Int), buf)
      | .bytes bs =>
        if (bs.take left).length = 0 then some (((n - left : Nat) : Int), buf)
        else readnLoop n script (left - (bs.take left).length) (buf ++ bs.take left)
    else some (((n - left : Nat) : Int), buf)

/-- The source's `readn(fd, buf, n)`: `left = n`, nothing stored yet. -/
def readn (script : List ReadOutcome) (n : Nat) : Option (Int × List Nat) :=
  readnLoop n script n []

/-- The script with every `EINTR` outcome removed. -/
def stripEintr (script : List ReadOutcome) : List ReadOutcome :=
  script.filter (fun o => decide (o ≠ ReadOutcome.eintr))

/-- The bytes delivered by a script, in order. -/
def payload : List ReadOutcome → List Nat
  | [] => []
  | .bytes bs :: script => bs ++ payload script
  | _ :: script => payload script

/-- Every outcome of the script is an `EINTR` or a non-empty delivery. -/
def Benign (script : List ReadOutcome) : Prop :=
  ∀ o ∈ script, o = ReadOutcome.eintr ∨ ∃ bs, o = ReadOutcome.bytes bs ∧ bs ≠ []

/-! ## Descriptor wiring -/

/-- A table of pipes as filled by `pipe(table[j])`: `table j 0` is the read end
and `table j 1` the write end of pipe `j`. -/
abbrev PipeTable := Nat → Nat → Int

/-- The index expression `(myId - 1 + k) % k` of `main`. -/
def predIdx (k myId : Nat) : Nat :=
  ((((myId : Int) - 1 + (k : Int)) % (k : Int))).toNat

/-- The four descriptors a node keeps (the locals `dataReadFd`, `dataWriteFd`,
`tokenReadFd`, `tokenWriteFd` of `main`). -/
structure Wiring where
  dataReadFd : Int
  dataWriteFd : Int
  tokenReadFd : Int
  tokenWriteFd : Int
deriving DecidableEq, Repr

/-- The "descriptors to keep" assignments of `main`, for node `myId`. -/
def wire (k myId : Nat) (dataPipe tokenPipe : PipeTable) : Wiring :=
  { dataReadFd := dataPipe (predIdx k myId) 0
    dataWriteFd := dataPipe myId 1
    tokenReadFd := tokenPipe (predIdx k myId) 0
    tokenWriteFd := tokenPipe myId 1 }

/-- The body of the close loop for one `j`: the descriptors passed to `close`. -/
def closeAt (dataPipe tokenPipe : PipeTable) (w : Wiring) (j : Nat) : List Int :=
  (if dataPipe j 0 ≠ w.dataReadFd then [dataPipe j 0] else [])
    ++ (if dataPipe j 1 ≠ w.dataWriteFd then [dataPipe j 1] else [])
    ++ (if tokenPipe j 0 ≠ w.tokenReadFd then [tokenPipe j 0] else [])
    ++ (if tokenPipe j 1 ≠ w.tokenWriteFd then [tokenPipe j 1] else [])

/-- The loop `for (j = 0; j < k; ++j)` closing the unused ends; the result
lists the descriptors closed, in order. -/
def closeUnused (k : Nat) (dataPipe tokenPipe : PipeTable) (w : Wiring) : List Int :=
  (List.range k).flatMap (closeAt dataPipe tokenPipe w)

/-- The descriptors node `myId` closes: it computes its wiring and runs the
close loop (the child branch after `fork` for `myId ≥ 1`, the parent for 0). -/
def closedBy (k myId : Nat) (dataPipe tokenPipe : PipeTable) : List Int :=
  closeUnused k dataPipe tokenPipe (wire k myId dataPipe tokenPipe)

/-- The two kinds of ring edge. -/
inductive EdgeKind where
  | data
  | token
deriving DecidableEq, Repr

/-- The descriptor of an endpoint: end `e` of pipe `j` of the given kind. -/
def fdOf (dataPipe tokenPipe : PipeTable) : EdgeKind → Nat → Nat → Int
  | .data, j, e => dataPipe j e
  | .token, j, e => tokenPipe j e

/-- The `4k` descriptors returned by the `pipe` calls are pairwise distinct. -/
def DistinctFds (k : Nat) (dataPipe tokenPipe : PipeTable) : Prop :=
  ∀ c j e c' j' e', j < k → j' < k → e < 2 → e' < 2 →
    fdOf dataPipe tokenPipe c j e = fdOf dataPipe tokenPipe c' j' e' →
    c = c' ∧ j = j' ∧ e = e'

/-- Node `i` still holds the endpoint after its close loop. -/
def Keeps (k i : Nat) (dataPipe tokenPipe : PipeTable) (c : EdgeKind) (j e : Nat) : Prop :=
  fdOf dataPipe tokenPipe c j e ∉ closedBy k i dataPipe tokenPipe

/-- The four endpoints the wiring assigns to node `i`. -/
def Assigned (k i : Nat) (j e : Nat) : Prop :=
  (j = predIdx k i ∧ e = 0) ∨ (j = i ∧ e = 1)

/-! ## Signal handler -/

/-- The file-scope variables of the program. -/
structure Globals where
  childPids : List Int
  childCount : Nat
  dataReadFd : Int
  dataWriteFd : Int
  tokenReadFd : Int
  tokenWriteFd : Int
deriving DecidableEq, Repr

/-- File-scope variables at program start: C zero-initialises them
(`childPids = NULL`, `childCount = 0`, the four descriptors 0). -/
def initGlobals : Globals :=
  { childPids := [], childCount := 0,
    dataReadFd := 0, dataWriteFd := 0, tokenReadFd := 0, tokenWriteFd := 0 }

/-- The system calls `handleSigInt` issues. -/
inductive SysCall where
  | kill (pid : Int)
  | close (fd : Int)
  | waitpid (pid : Int)
deriving DecidableEq, Repr

/-- The source's `handleSigInt`: it reads the file-scope variables only. -/
def handleSigInt (g : Globals) : List SysCall :=
  (g.childPids.take g.childCount).map SysCall.kill
    ++ [SysCall.close g.dataReadFd, SysCall.close g.dataWriteFd,
        SysCall.close g.tokenReadFd, SysCall.close g.tokenWriteFd]
    ++ (g.childPids.take g.childCount).map SysCall.waitpid

/-- The parent side of the fork loop `for (i = 1; i < k; ++i)`:
`childPids[childCount++] = pid`, where `forkPid i` is what `fork` returned
for child `i`. -/
def forkLoop (forkPid : Nat → Int) (k : Nat) (g : Globals) : Globals :=
  (List.range' 1 (k - 1)).foldl
    (fun g i => { g with childPids := g.childPids.take g.childCount ++ [forkPid i],
                         childCount := g.childCount + 1 }) g

/-- The state of `main` once node 0 is wired: the file-scope variables and
the locals. `main` declares `dataReadFd`, `dataWriteFd`, `tokenReadFd` and
`tokenWriteFd` (and `dataPipe`, `tokenPipe`) as locals, so its assignments go
to the locals and the file-scope variables of the same names are untouched. -/
def mainWired (forkPid : Nat → Int) (k : Nat) (dataPipe tokenPipe : PipeTable) :
    Globals × Wiring :=
  (forkLoop forkPid k { initGlobals with childPids := [], childCount := 0 },
   wire k 0 dataPipe tokenPipe)

/-- The descriptors closed by a sequence of system calls. -/
def closesOf : List SysCall → List Int
  | [] => []
  | .close fd :: cs => fd :: closesOf cs
  | _ :: cs => closesOf cs

/-- The pids signalled by a sequence of system calls. -/
def killsOf : List SysCall → List Int
  | [] => []
  | .kill pid :: cs => pid :: killsOf cs
  | _ :: cs => killsOf cs

/-- The pids waited on by a sequence of system calls. -/
def waitsOf : List SysCall → List Int
  | [] => []
  | .waitpid pid :: cs => pid :: waitsOf cs
  | _ :: cs => waitsOf cs

/-! ## Message policy of the loops -/

/-- The branch taken by the three-way test on `msg.dest`. -/
inductive Branch where
  | headerEmpty
  | forMe
  | forOther
deriving DecidableEq, Repr

/-- The record written by `main` as `initial`, and the value a consumed
message is reset to: `dest = -1`, `len = 0`, `memset(text, 0, sizeof text)`. -/
def emptyMessage : Message :=
  { dest := -1, len := 0, text := List.replicate MAXMSG 0 }

/-- The three-way test on `msg.dest` present in both `childLoop` and the
parent loop (there with `myId = 0`): the branch taken and `msg` afterwards. -/
def diagnose (myId : Int) (msg : Message) : Branch × Message :=
  if msg.dest = -1 then (Branch.headerEmpty, msg)
  else if msg.dest = myId then
    (Branch.forMe, { msg with dest := -1, len := 0, text := List.replicate MAXMSG 0 })
  else (Branch.forOther, msg)

/-- The C `sizeof(Message)`: two 4-byte ints and `MAXMSG` chars. -/
def sizeofMessage : Int := 4 + 4 + (MAXMSG : Int)

/-- What one pass through a loop body did. -/
structure IterResult where
  /-- The record handed to `writen(dataWriteFd, &msg, sizeof(Message))`, if reached. -/
  written : Option Message
  /-- Whether the token write was reached and succeeded. -/
  tokenPassed : Bool
  /-- Whether the loop goes on to another iteration (no `break`). -/
  continues : Bool
deriving DecidableEq, Repr

/-- One pass through the `while (1)` body of `childLoop`. `rn` and `r` are the
results of the two `readn` calls, `msg` the record read, `dw` and `tw` the
results of the two `writen` calls. -/
def childLoopIter (myId : Int) (rn r : Int) (msg : Message) (dw tw : Int) : IterResult :=
  if rn ≤ 0 then ⟨none, false, false⟩
  else if r ≠ sizeofMessage then ⟨none, false, false⟩
  else
    let msg' := (diagnose myId msg).2
    if dw ≠ sizeofMessage then ⟨some msg', false, false⟩
    else if tw ≠ 1 then ⟨some msg', false, false⟩
    else ⟨some msg', true, true⟩

/-- The C library's `fgets` scanning: at most `n` bytes, stopping after a
newline (byte 10) or at the end of the stream. -/
def fgetsLine : Nat → List Nat → List Nat
  | 0, _ => []
  | _ + 1, [] => []
  | n + 1, c :: cs => if c = 10 then [c] else c :: fgetsLine n cs

/-- The C library's `fgets(buf, size, stdin)` on the bytes pending on stdin:
the bytes stored before the terminating NUL, `none` for a NULL return. -/
def fgets (size : Nat) (stdin : List Nat) : Option (List Nat) :=
  match fgetsLine (size - 1) stdin with
  | [] => none
  | c :: cs => some (c :: cs)

/-- The C library's `strlen`: the number of bytes before the first NUL. -/
def strlen (buf : List Nat) : Nat :=
  (buf.takeWhile (fun c => c != 0)).length

/-- What the user supplies at one prompt: the bytes pending on stdin when
`fgets` is called, and the outcome of `scanf("%d%*c", &dest)` (`none` when it
does not return 1). -/
structure Prompt where
  typed : List Nat
  scanned : Option Int
deriving DecidableEq, Repr

/-- The parent's input step: `fgets` into `input` (`input[0] = 0` on NULL),
`inlen = strlen(input)`, and the trailing newline removed. The result is the
buffer and `inlen`. -/
def readInput (typed : List Nat) : List Nat × Nat :=
  let input := match fgets MAXMSG typed with
    | none => [0]
    | some line => line ++ [0]
  let inlen := strlen input
  if 0 < inlen ∧ input.getD (inlen - 1) 0 = 10 then (input.set (inlen - 1) 0, inlen - 1)
  else (input, inlen)

/-- The parent's `if (inlen > 0) { ... }` block: `msg` afterwards. -/
def inject (k : Nat) (msg : Message) (p : Prompt) : Message :=
  let input := (readInput p.typed).1
  let inlen := (readInput p.typed).2
  if 0 < inlen then
    match p.scanned with
    | none => msg
    | some dest =>
      if dest < 0 ∨ dest ≥ (k : Int) then msg
      else
        let len := if inlen < MAXMSG then inlen else MAXMSG
        { dest := dest, len := (len : Int), text := input.take len ++ msg.text.drop len }
  else msg

/-- The user's answer makes the parent populate `msg`: text was entered and
the destination scanned is in `[0, k)`. -/
def injects (k : Nat) (p : Prompt) : Bool :=
  decide (0 < (readInput p.typed).2) &&
    (match p.scanned with
     | none => false
     | some dest => !(decide (dest < 0) || decide (dest ≥ (k : Int))))

/-- The record the parent holds when it reaches its `writen`: the three-way
test with `myId = 0`, then the prompt. -/
def parentPolicy (k : Nat) (msg : Message) (p : Prompt) : Message :=
  inject k (diagnose 0 msg).2 p

/-- One pass through the parent's `while (1)` body, with the same reading of
`rn`, `r`, `dw`, `tw` as for `childLoopIter`. -/
def parentLoopIter (k : Nat) (rn r : Int) (msg : Message) (p : Prompt) (dw tw : Int) :
    IterResult :=
  if rn ≤ 0 then ⟨none, false, false⟩
  else if r ≠ sizeofMessage then ⟨none, false, false⟩
  else
    let msg' := parentPolicy k msg p
    if dw ≠ sizeofMessage then ⟨some msg', false, false⟩
    else if tw ≠ 1 then ⟨some msg', false, false⟩
    else ⟨some msg', true, true⟩

/-! ## The ring as a transition system -/

/-- Where a node is in its loop body. -/
inductive PC where
  /-- Blocked in (or about to call) `readn` on the token pipe. -/
  | awaitToken
  /-- Token read; about to `readn` the record. -/
  | readData
  /-- Record read and policy applied; about to `writen` the record `m`. -/
  | writeData (m : Message)
  /-- Record written; about to `writen` the token byte. -/
  | writeToken
deriving DecidableEq, Repr

/-- Lines a node prints, with the values they report. -/
inductive Event where
  | headerEmpty (node : Nat)
  | forMe (node : Nat) (body : List Nat)
  | forOther (node : Nat) (dest : Int)
  | wrote (node : Nat) (m : Message)
  | passed (node : Nat)
deriving DecidableEq, Repr

/-- The ring: the token bytes and records buffered in each pipe (pipe `j`
leads from node `j` to its successor), each node's position in its loop,
and the output so far. -/
structure Ring where
  tokenBuf : Nat → Nat
  dataBuf : Nat → List Message
  pc : Nat → PC
  out : List Event

/-- The line printed by the three-way test. `fwrite(msg.text, 1, msg.len,
stdout)` prints the first `len` bytes of the body. -/
def branchEvent (i : Nat) (msg : Message) : Event :=
  match (diagnose (i : Int) msg).1 with
  | .headerEmpty => Event.headerEmpty i
  | .forMe => Event.forMe i (msg.text.take msg.len.toNat)
  | .forOther => Event.forOther i msg.dest

/-- The record node `i` holds when it reaches its `writen`, having read `msg`. -/
def policy (k i : Nat) (p : Prompt) (msg : Message) : Message :=
  if i = 0 then parentPolicy k msg p else (diagnose (i : Int) msg).2

/-- One blocking operation of node `i` and the code up to the next one, when
the operation succeeds; `none` when node `i` is blocked (nothing to read).
Node `i` reads from pipe `predIdx k i` and writes to pipe `i`. -/
def peerStep (k i : Nat) (p : Prompt) (s : Ring) : Option Ring :=
  match s.pc i with
  | .awaitToken =>
    if s.tokenBuf (predIdx k i) = 0 then none
    else some { s with
      tokenBuf := Function.update s.tokenBuf (predIdx k i) (s.tokenBuf (predIdx k i) - 1)
      pc := Function.update s.pc i PC.readData }
  | .readData =>
    match s.dataBuf (predIdx k i) with
    | [] => none
    | msg :: rest => some { s with
      dataBuf := Function.update s.dataBuf (predIdx k i) rest
      pc := Function.update s.pc i (PC.writeData (policy k i p msg))
      out := s.out ++ [branchEvent i msg] }
  | .writeData m => some { s with
      dataBuf := Function.update s.dataBuf i (s.dataBuf i ++ [m])
      pc := Function.update s.pc i PC.writeToken
      out := s.out ++ [Event.wrote i m] }
  | .writeToken => some { s with
      tokenBuf := Function.update s.tokenBuf i (s.tokenBuf i + 1)
      pc := Function.update s.pc i PC.awaitToken
      out := s.out ++ [Event.passed i] }

/-- The ring after `main` has seeded it: `initial` written to
`dataPipe[k-1][1]`, one token byte written to `tokenPipe[k-1][1]`, every node
at the top of its loop. -/
def seeded (k : Nat) : Ring :=
  { tokenBuf := Function.update (fun _ => 0) (k - 1) 1
    dataBuf := Function.update (fun _ => []) (k - 1) [emptyMessage]
    pc := fun _ => PC.awaitToken
    out := [] }

/-- States reachable from the seeded ring by successful steps of the nodes
`0 .. k-1`, in any interleaving and with any user input. -/
inductive Reachable (k : Nat) : Ring → Prop where
  | seed : Reachable k (seeded k)
  | step {s s' : Ring} (i : Nat) (p : Prompt) :
      Reachable k s → i < k → peerStep k i p s = some s' → Reachable k s'

/-- The node is between its token read and its token write. -/
def holdsToken : PC → Bool
  | .awaitToken => false
  | _ => true

/-- The node is between its record read and its record write. -/
def holdsRecord : PC → Bool
  | .writeData _ => true
  | _ => false

/-- Token units in the ring: bytes buffered in the token pipes plus nodes
between token read and token write. -/
def tokenUnits (k : Nat) (s : Ring) : Nat :=
  Finset.sum (Finset.range k) (fun j => s.tokenBuf j)
    + Finset.sum (Finset.range k) (fun i => if holdsToken (s.pc i) then 1 else 0)

/-- Records in the ring: records buffered in the data pipes plus records held
by nodes between reading and writing. -/
def slotRecords (k : Nat) (s : Ring) : Nat :=
  Finset.sum (Finset.range k) (fun j => (s.dataBuf j).length)
    + Finset.sum (Finset.range k) (fun i => if holdsRecord (s.pc i) then 1 else 0)

/-- A record as the writers in this program produce it: `0 ≤ len ≤ MAXMSG`,
a body of `MAXMSG` bytes, and zero bytes from index `len` on. -/
def WellFormed (m : Message) : Prop :=
  0 ≤ m.len ∧ m.len ≤ (MAXMSG : Int) ∧ m.text.length = MAXMSG ∧
    ∀ (idx : Nat) (h : idx < m.text.length), m.len ≤ (idx : Int) → m.text[idx] = 0

/-- The ring with record `m` and the token both buffered on pipe `j`, every
node at the top of its loop, and `o` printed so far. -/
def parkedOut (j : Nat) (m : Message) (o : List Event) : Ring :=
  { tokenBuf := Function.update (fun _ => 0) j 1
    dataBuf := Function.update (fun _ => []) j [m]
    pc := fun _ => PC.awaitToken
    out := o }

/-- The ring with record `m` and the token both buffered on pipe `j`, every
node at the top of its loop and nothing printed yet. -/
def parked (j : Nat) (m : Message) : Ring := parkedOut j m []

/-- What the protocol maintains for a record written by node `j` in a ring of
`k` nodes: it is well formed, an empty header comes with `len = 0`, and a
destination is 0 or a node further along than `j`. -/
def Good (k j : Nat) (m : Message) : Prop :=
  WellFormed m ∧ (m.dest = -1 → m.len = 0) ∧
    (m.dest = -1 ∨ m.dest = 0 ∨ ((j : Int) < m.dest ∧ m.dest < (k : Int)))

/-- The invariant of the reachable states. -/
def Inv (k : Nat) (s : Ring) : Prop :=
  (∀ j, j < k → ∀ m ∈ s.dataBuf j, Good k j m) ∧
  (∀ i, i < k → ∀ m, s.pc i = PC.writeData m → Good k i m) ∧
  (∀ i m, Event.wrote i m ∈ s.out → i < k ∧ Good k i m) ∧
  (∀ d, Event.forOther 0 d ∉ s.out)

/-- One full loop iteration of node `i`: its four blocking operations in
program order. -/
def hop (k i : Nat) (p : Prompt) (s : Ring) : Option Ring :=
  (peerStep k i p s).bind fun s1 =>
  (peerStep k i p s1).bind fun s2 =>
  (peerStep k i p s2).bind fun s3 =>
  peerStep k i p s3

/-- The first `n` hops of the ring in successor order after node 0 has
written: hop `t` (counted from 1) is made by node `t % k`, and `prompts t'`
is the user's answer should hop `t' + 1` be node 0's. -/
def circulate (k : Nat) (prompts : Nat → Prompt) : Nat → Ring → Option Ring
  | 0, s => some s
  | n + 1, s => (circulate k prompts n s).bind (hop k ((n + 1) % k) (prompts n))

/-- The deliveries in an output: the node and the body it printed. -/
def deliveries : List Event → List (Nat × List Nat)
  | [] => []
  | .forMe i body :: es => (i, body) :: deliveries es
  | _ :: es => deliveries es

/-- The records written in an output: the node and the record. -/
def writes : List Event → List (Nat × Message)
  | [] => []
  | .wrote i m :: es => (i, m) :: writes es
  | _ :: es => writes es

/-! ## Lemmas on readn -/

/-- The loop of `readn` gives the same result on a script and on the script
without its `EINTR` outcomes. -/
theorem readnLoop_strip (n : Nat) (script : List ReadOutcome) :
    ∀ left buf, readnLoop n script left buf = readnLoop n (stripEintr script) left buf := by
  induction script with
  | nil => intro left buf; rfl
  | cons o script ih =>
    intro left buf
    cases o with
    | eintr =>
      have hs : stripEintr (ReadOutcome.eintr :: script) = stripEintr script := by
        simp [stripEintr]
      rw [hs, ← ih]
      by_cases hl : 0 < left
      · simp [readnLoop, hl]
      · have h0 : left = 0 := by omega
        subst h0
        cases script <;> simp [readnLoop]
    | failure =>
      have hs : stripEintr (ReadOutcome.failure :: script)
          = ReadOutcome.failure :: stripEintr script := by simp [stripEintr]
      rw [hs]; simp [readnLoop]
    | eof =>
      have hs : stripEintr (ReadOutcome.eof :: script)
          = ReadOutcome.eof :: stripEintr script := by simp [stripEintr]
      rw [hs]; simp [readnLoop]
    | bytes bs =>
      have hs : stripEintr (ReadOutcome.bytes bs :: script)
          = ReadOutcome.bytes bs :: stripEintr script := by simp [stripEintr]
      rw [hs]; simp only [readnLoop]
      rw [ih]

theorem payload_append (a b : List ReadOutcome) : payload (a ++ b) = payload a ++ payload b := by
  induction a with
  | nil => rfl
  | cons o a ih => cases o <;> simp [payload, ih]

/-- Running the loop through a prefix of `EINTR`s and non-empty deliveries
that does not yet satisfy the request stores the delivered bytes and asks for
the remainder. -/
theorem readnLoop_benign_front (n : Nat) (tail : List ReadOutcome) :
    ∀ (pre : List ReadOutcome) (left : Nat) (buf : List Nat), Benign pre →
      (payload pre).length < left →
      readnLoop n (pre ++ tail) left buf
        = readnLoop n tail (left - (payload pre).length) (buf ++ payload pre) := by
  intro pre
  induction pre with
  | nil => intro left buf _ _; simp [payload]
  | cons o pre ih =>
    intro left buf hb hlt
    have hb' : Benign pre := fun o ho => hb o (List.mem_cons_of_mem _ ho)
    rcases hb o (List.mem_cons_self _ _) with h | ⟨bs, h, hne⟩
    · subst h
      have hlt' : (payload pre).length < left := by simpa [payload] using hlt
      have hl : 0 < left := by omega
      simp only [List.cons_append, readnLoop, hl, if_true]
      refine (ih left buf hb' hlt').trans ?_
      simp [payload]
    · subst h
      have hlen : bs.length + (payload pre).length < left := by
        simpa [payload] using hlt
      have hl : 0 < left := by omega
      have htake : bs.take left = bs := List.take_of_length_le (by omega)
      have hpos : bs.length ≠ 0 := by
        intro h0; exact hne (List.length_eq_zero.mp h0)
      simp only [List.cons_append, readnLoop, hl, if_true, htake, hpos, if_false]
      refine (ih (left - bs.length) (buf ++ bs) hb' (by omega)).trans ?_
      simp only [payload, List.length_append, List.append_assoc]
      congr 1
      omega

/-- With nothing left to read the loop returns `n`. -/
theorem readnLoop_zero (n : Nat) (s : List ReadOutcome) (buf : List Nat) :
    readnLoop n s 0 buf = some ((n : Int), buf) := by
  cases s <;> simp [readnLoop]

/-- A delivery of at least `left` bytes completes the request. -/
theorem readnLoop_fill (n left : Nat) (bs : List Nat) (rest : List ReadOutcome)
    (buf : List Nat) (h0 : 0 < left) (h : left ≤ bs.length) :
    readnLoop n (ReadOutcome.bytes bs :: rest) left buf = some ((n : Int), buf ++ bs.take left) := by
  have hl : (bs.take left).length = left := by
    simp only [List.length_take]; omega
  have hne : ¬ left = 0 := by omega
  simp only [readnLoop, h0, if_true, hl, hne, if_false, Nat.sub_self]
  exact readnLoop_zero n rest _

/-! ## Lemmas on the wiring -/

/-- The source's `(myId - 1 + k) % k` is `k - 1` for node 0 and `myId - 1`
otherwise. -/
theorem predIdx_eq (k i : Nat) (hk : 1 ≤ k) (hi : i < k) :
    predIdx k i = if i = 0 then k - 1 else i - 1 := by
  unfold predIdx
  by_cases h0 : i = 0
  · subst h0
    have h : ((((0 : Nat) : Int) - 1 + (k : Int)) % (k : Int)) = (k : Int) - 1 := by
      apply Int.emod_eq_of_lt <;> omega
    rw [h, if_pos rfl]; omega
  · have h : (((i : Int) - 1 + (k : Int)) % (k : Int)) = (i : Int) - 1 := by
      rw [Int.add_emod_self]
      apply Int.emod_eq_of_lt <;> omega
    rw [h, if_neg h0]; omega

theorem predIdx_lt (k i : Nat) (hk : 1 ≤ k) (hi : i < k) : predIdx k i < k := by
  rw [predIdx_eq k i hk hi]; split <;> omega

theorem predIdx_succ_mod (k n : Nat) (hk : 1 ≤ k) : predIdx k ((n + 1) % k) = n % k := by
  have hlt : (n + 1) % k < k := Nat.mod_lt _ (by omega)
  rw [predIdx_eq k _ hk hlt]
  have hn : n % k < k := Nat.mod_lt _ (by omega)
  have key : (n + 1) % k = if n % k + 1 = k then 0 else n % k + 1 := by
    rw [Nat.add_mod]
    by_cases h : n % k + 1 = k
    · rw [if_pos h]
      by_cases h1 : k = 1
      · subst h1; omega
      · have : 1 % k = 1 := Nat.mod_eq_of_lt (by omega)
        rw [this, h, Nat.mod_self]
    · rw [if_neg h]
      by_cases h1 : k = 1
      · subst h1; omega
      · have : 1 % k = 1 := Nat.mod_eq_of_lt (by omega)
        rw [this]; exact Nat.mod_eq_of_lt (by omega)
  rw [key]
  by_cases h : n % k + 1 = k
  · simp [h]; omega
  · simp [h]

theorem succ_predIdx (k i : Nat) (hk : 1 ≤ k) (hi : i < k) : (predIdx k i + 1) % k = i := by
  rw [predIdx_eq k i hk hi]
  by_cases h0 : i = 0
  · subst h0; simp
    have : k - 1 + 1 = k := by omega
    rw [this, Nat.mod_self]
  · simp [h0]
    have : i - 1 + 1 = i := by omega
    rw [this]; exact Nat.mod_eq_of_lt hi

theorem predIdx_eq_iff (k i j : Nat) (hk : 1 ≤ k) (hi : i < k) (hj : j < k) :
    j = predIdx k i ↔ i = (j + 1) % k := by
  constructor
  · intro h; rw [h, succ_predIdx k i hk hi]
  · intro h
    have := predIdx_succ_mod k j hk
    rw [← h] at this
    rw [this, Nat.mod_eq_of_lt hj]

/-- The descriptors closed by the close loop. -/
theorem mem_closeUnused (k : Nat) (dp tp : PipeTable) (w : Wiring) (x : Int) :
    x ∈ closeUnused k dp tp w ↔
      ∃ j, j < k ∧ ((x = dp j 0 ∧ x ≠ w.dataReadFd) ∨ (x = dp j 1 ∧ x ≠ w.dataWriteFd)
        ∨ (x = tp j 0 ∧ x ≠ w.tokenReadFd) ∨ (x = tp j 1 ∧ x ≠ w.tokenWriteFd)) := by
  unfold closeUnused closeAt
  simp only [List.mem_flatMap, List.mem_range, List.mem_append]
  constructor
  · rintro ⟨j, hj, h⟩
    refine ⟨j, hj, ?_⟩
    rcases h with ((h | h) | h) | h
    · by_cases hc : dp j 0 ≠ w.dataReadFd
      · rw [if_pos hc] at h; simp at h; subst h; exact Or.inl ⟨rfl, hc⟩
      · rw [if_neg hc] at h; simp at h
    · by_cases hc : dp j 1 ≠ w.dataWriteFd
      · rw [if_pos hc] at h; simp at h; subst h; exact Or.inr (Or.inl ⟨rfl, hc⟩)
      · rw [if_neg hc] at h; simp at h
    · by_cases hc : tp j 0 ≠ w.tokenReadFd
      · rw [if_pos hc] at h; simp at h; subst h; exact Or.inr (Or.inr (Or.inl ⟨rfl, hc⟩))
      · rw [if_neg hc] at h; simp at h
    · by_cases hc : tp j 1 ≠ w.tokenWriteFd
      · rw [if_pos hc] at h; simp at h; subst h; exact Or.inr (Or.inr (Or.inr ⟨rfl, hc⟩))
      · rw [if_neg hc] at h; simp at h
  · rintro ⟨j, hj, h⟩
    refine ⟨j, hj, ?_⟩
    rcases h with ⟨h, hc⟩ | ⟨h, hc⟩ | ⟨h, hc⟩ | ⟨h, hc⟩
    · subst h; exact Or.inl (Or.inl (Or.inl (by rw [if_pos hc]; simp)))
    · subst h; exact Or.inl (Or.inl (Or.inr (by rw [if_pos hc]; simp)))
    · subst h; exact Or.inl (Or.inr (by rw [if_pos hc]; simp))
    · subst h; exact Or.inr (by rw [if_pos hc]; simp)

/-- With pairwise distinct descriptors, a node still holds an endpoint after
its close loop exactly when the endpoint is one of its four. -/
theorem keeps_iff_assigned (k : Nat) (hk : 1 ≤ k) (dp tp : PipeTable)
    (hd : DistinctFds k dp tp) (i : Nat) (hi : i < k) (c : EdgeKind) (j e : Nat)
    (hj : j < k) (he : e < 2) :
    Keeps k i dp tp c j e ↔ Assigned k i j e := by
  have hp : predIdx k i < k := predIdx_lt k i hk hi
  unfold Keeps closedBy Assigned
  rw [mem_closeUnused]
  simp only [wire]
  have d_dd := fun j e j' e' (a : j < k) (b : j' < k) (c : e < 2) (d : e' < 2) =>
    hd .data j e .data j' e' a b c d
  have d_dt := fun j e j' e' (a : j < k) (b : j' < k) (c : e < 2) (d : e' < 2) =>
    hd .data j e .token j' e' a b c d
  have d_td := fun j e j' e' (a : j < k) (b : j' < k) (c : e < 2) (d : e' < 2) =>
    hd .token j e .data j' e' a b c d
  have d_tt := fun j e j' e' (a : j < k) (b : j' < k) (c : e < 2) (d : e' < 2) =>
    hd .token j e .token j' e' a b c d
  simp only [fdOf] at d_dd d_dt d_td d_tt
  have he' : e = 0 ∨ e = 1 := by omega
  constructor
  · intro hnot
    by_contra hna
    apply hnot
    refine ⟨j, hj, ?_⟩
    rcases he' with rfl | rfl <;> cases c <;> simp only [fdOf]
    · refine Or.inl ⟨trivial, fun h => hna (Or.inl ⟨(d_dd _ _ _ _ hj hp (by omega) (by omega) h).2.1, rfl⟩)⟩
    · refine Or.inr (Or.inr (Or.inl ⟨trivial, fun h => hna (Or.inl ⟨(d_tt _ _ _ _ hj hp (by omega) (by omega) h).2.1, rfl⟩)⟩))
    · refine Or.inr (Or.inl ⟨trivial, fun h => hna (Or.inr ⟨(d_dd _ _ _ _ hj hi (by omega) (by omega) h).2.1, rfl⟩)⟩)
    · refine Or.inr (Or.inr (Or.inr ⟨trivial, fun h => hna (Or.inr ⟨(d_tt _ _ _ _ hj hi (by omega) (by omega) h).2.1, rfl⟩)⟩))
  · rintro hass ⟨j', hj', h⟩
    rcases hass with ⟨rfl, rfl⟩ | ⟨rfl, rfl⟩ <;> cases c <;> simp only [fdOf] at h
    all_goals
      rcases h with ⟨h, hc⟩ | ⟨h, hc⟩ | ⟨h, hc⟩ | ⟨h, hc⟩
    all_goals first
      | exact hc rfl
      | (have hx := d_dd _ _ _ _ hp hj' (by omega) (by omega) h; omega)
      | (have hx := d_dt _ _ _ _ hp hj' (by omega) (by omega) h; simp at hx)
      | (have hx := d_td _ _ _ _ hp hj' (by omega) (by omega) h; simp at hx)
      | (have hx := d_tt _ _ _ _ hp hj' (by omega) (by omega) h; omega)
      | (have hx := d_dd _ _ _ _ hi hj' (by omega) (by omega) h; omega)
      | (have hx := d_dt _ _ _ _ hi hj' (by omega) (by omega) h; simp at hx)
      | (have hx := d_td _ _ _ _ hi hj' (by omega) (by omega) h; simp at hx)
      | (have hx := d_tt _ _ _ _ hi hj' (by omega) (by omega) h; omega)

/-- The descriptors 3 to 14, handed out pipe by pipe, are pairwise distinct. -/
theorem distinct_example :
    DistinctFds 3 (fun j e => 3 + 4 * (j : Int) + (e : Int))
      (fun j e => 5 + 4 * (j : Int) + (e : Int)) := by
  intro c j e c' j' e' hj hj' he he' h
  cases c <;> cases c' <;> simp only [fdOf] at h <;>
    first
      | exact ⟨rfl, by omega, by omega⟩
      | (exfalso; omega)

/-! ## Lemmas on the handler -/

theorem closesOf_append (a b : List SysCall) : closesOf (a ++ b) = closesOf a ++ closesOf b := by
  induction a with
  | nil => rfl
  | cons c a ih => cases c <;> simp [closesOf, ih]

theorem killsOf_append (a b : List SysCall) : killsOf (a ++ b) = killsOf a ++ killsOf b := by
  induction a with
  | nil => rfl
  | cons c a ih => cases c <;> simp [killsOf, ih]

theorem waitsOf_append (a b : List SysCall) : waitsOf (a ++ b) = waitsOf a ++ waitsOf b := by
  induction a with
  | nil => rfl
  | cons c a ih => cases c <;> simp [waitsOf, ih]

theorem calls_map_kill (l : List Int) :
    closesOf (l.map SysCall.kill) = [] ∧ killsOf (l.map SysCall.kill) = l
      ∧ waitsOf (l.map SysCall.kill) = [] := by
  induction l with
  | nil => exact ⟨rfl, rfl, rfl⟩
  | cons a l ih => simp [closesOf, killsOf, waitsOf, ih]

theorem calls_map_waitpid (l : List Int) :
    closesOf (l.map SysCall.waitpid) = [] ∧ killsOf (l.map SysCall.waitpid) = []
      ∧ waitsOf (l.map SysCall.waitpid) = l := by
  induction l with
  | nil => exact ⟨rfl, rfl, rfl⟩
  | cons a l ih => simp [closesOf, killsOf, waitsOf, ih]

/-- The fork loop appends one pid per child and touches nothing else. -/
theorem forkLoop_fold (forkPid : Nat → Int) (l : List Nat) :
    ∀ g : Globals, g.childPids.length = g.childCount →
      let g' := l.foldl
        (fun g i => { g with childPids := g.childPids.take g.childCount ++ [forkPid i],
                             childCount := g.childCount + 1 }) g
      g'.childPids = g.childPids ++ l.map forkPid ∧ g'.childCount = g.childCount + l.length
        ∧ g'.dataReadFd = g.dataReadFd ∧ g'.dataWriteFd = g.dataWriteFd
        ∧ g'.tokenReadFd = g.tokenReadFd ∧ g'.tokenWriteFd = g.tokenWriteFd := by
  induction l with
  | nil => intro g _; simp
  | cons a l ih =>
    intro g hg
    have h := ih { g with childPids := g.childPids.take g.childCount ++ [forkPid a],
                          childCount := g.childCount + 1 } (by simp [hg])
    simp only [List.foldl_cons]
    obtain ⟨h1, h2, h3, h4, h5, h6⟩ := h
    refine ⟨?_, ?_, h3, h4, h5, h6⟩
    · rw [h1]
      have : g.childPids.take g.childCount = g.childPids :=
        List.take_of_length_le (by omega)
      simp [this]
    · rw [h2]; simp; omega

/-- Whatever the ring size and the pipe descriptors, the handler signals and
waits on exactly the recorded children, once each and in order, but the four
descriptors it closes are the zero-initialised file-scope variables. -/
theorem handleSigInt_after_main (forkPid : Nat → Int) (k : Nat) (dataPipe tokenPipe : PipeTable) :
    killsOf (handleSigInt (mainWired forkPid k dataPipe tokenPipe).1)
        = (List.range' 1 (k - 1)).map forkPid ∧
    waitsOf (handleSigInt (mainWired forkPid k dataPipe tokenPipe).1)
        = (List.range' 1 (k - 1)).map forkPid ∧
    closesOf (handleSigInt (mainWired forkPid k dataPipe tokenPipe).1) = [0, 0, 0, 0] := by
  have h := forkLoop_fold forkPid (List.range' 1 (k - 1))
    { initGlobals with childPids := [], childCount := 0 } rfl
  simp only at h
  obtain ⟨h1, h2, h3, h4, h5, h6⟩ := h
  have hp : (mainWired forkPid k dataPipe tokenPipe).1.childPids
      = (List.range' 1 (k - 1)).map forkPid := by
    simpa [mainWired, forkLoop, initGlobals] using h1
  have hc : (mainWired forkPid k dataPipe tokenPipe).1.childCount = k - 1 := by
    simpa [mainWired, forkLoop, initGlobals] using h2
  have ht : ((mainWired forkPid k dataPipe tokenPipe).1.childPids.take
      (mainWired forkPid k dataPipe tokenPipe).1.childCount)
      = (List.range' 1 (k - 1)).map forkPid := by
    rw [hp, hc]; exact List.take_of_length_le (by simp)
  have e3 : (mainWired forkPid k dataPipe tokenPipe).1.dataReadFd = 0 := by
    simpa [mainWired, forkLoop, initGlobals] using h3
  have e4 : (mainWired forkPid k dataPipe tokenPipe).1.dataWriteFd = 0 := by
    simpa [mainWired, forkLoop, initGlobals] using h4
  have e5 : (mainWired forkPid k dataPipe tokenPipe).1.tokenReadFd = 0 := by
    simpa [mainWired, forkLoop, initGlobals] using h5
  have e6 : (mainWired forkPid k dataPipe tokenPipe).1.tokenWriteFd = 0 := by
    simpa [mainWired, forkLoop, initGlobals] using h6
  unfold handleSigInt
  rw [ht, e3, e4, e5, e6]
  generalize List.map forkPid (List.range' 1 (k - 1)) = l
  simp only [closesOf_append, killsOf_append, waitsOf_append, (calls_map_kill l).1,
    (calls_map_kill l).2.1, (calls_map_kill l).2.2, (calls_map_waitpid l).1,
    (calls_map_waitpid l).2.1, (calls_map_waitpid l).2.2, closesOf, killsOf, waitsOf,
    List.append_nil, List.nil_append, and_self]

/-! ## Lemmas on the input step -/

/-- The scan of `fgets` stores at most `n` bytes. -/
theorem fgetsLine_length (n : Nat) : ∀ s : List Nat, (fgetsLine n s).length ≤ n := by
  induction n with
  | zero => intro s; simp [fgetsLine]
  | succ n ih =>
    intro s
    cases s with
    | nil => simp [fgetsLine]
    | cons c cs =>
      simp only [fgetsLine]
      split
      · simp
      · simp only [List.length_cons]; have := ih cs; omega

theorem fgets_length (size : Nat) (s line : List Nat) (h : fgets size s = some line) :
    line.length ≤ size - 1 := by
  unfold fgets at h
  have hl := fgetsLine_length (size - 1) s
  cases hf : fgetsLine (size - 1) s with
  | nil => rw [hf] at h; simp at h
  | cons c cs =>
    rw [hf] at h hl
    simp only [Option.some.injEq] at h
    rw [← h]; exact hl

theorem strlen_le (buf : List Nat) : strlen buf ≤ buf.length := by
  unfold strlen
  exact (List.takeWhile_sublist _).length_le

theorem strlen_append_nul (l : List Nat) : strlen (l ++ [0]) ≤ l.length := by
  induction l with
  | nil => simp [strlen]
  | cons c l ih =>
    unfold strlen at ih ⊢
    simp only [List.cons_append, List.takeWhile_cons]
    split
    · simp only [List.length_cons]; omega
    · simp

/-- After the input step `inlen < MAXMSG` and `inlen` bytes are in the buffer. -/
theorem readInput_bounds (typed : List Nat) :
    (readInput typed).2 < MAXMSG ∧ (readInput typed).2 ≤ (readInput typed).1.length := by
  unfold readInput
  have hbuf : ∀ input : List Nat, strlen input < MAXMSG →
      (if 0 < strlen input ∧ input.getD (strlen input - 1) 0 = 10
        then (input.set (strlen input - 1) 0, strlen input - 1)
        else (input, strlen input)).2 < MAXMSG ∧
      (if 0 < strlen input ∧ input.getD (strlen input - 1) 0 = 10
        then (input.set (strlen input - 1) 0, strlen input - 1)
        else (input, strlen input)).2 ≤
      (if 0 < strlen input ∧ input.getD (strlen input - 1) 0 = 10
        then (input.set (strlen input - 1) 0, strlen input - 1)
        else (input, strlen input)).1.length := by
    intro input h
    have := strlen_le input
    split
    · simp only [List.length_set]; omega
    · exact ⟨h, this⟩
  apply hbuf
  cases hf : fgets MAXMSG typed with
  | none => simp [strlen, MAXMSG]
  | some line =>
    have h1 := fgets_length MAXMSG typed line hf
    have h2 := strlen_append_nul line
    have : MAXMSG = 512 := rfl
    simp only
    omega

/-- Without text, or with a destination that is not valid, `msg` is untouched. -/
theorem inject_declined (k : Nat) (msg : Message) (p : Prompt) (h : injects k p = false) :
    inject k msg p = msg := by
  unfold inject
  unfold injects at h
  by_cases hin : 0 < (readInput p.typed).2
  · simp only [hin, if_true]
    cases hs : p.scanned with
    | none => rfl
    | some d =>
      simp only [hs, hin, decide_True, Bool.true_and, Bool.not_eq_false', Bool.or_eq_true,
        decide_eq_true_eq] at h
      simp only [h, if_true]
  · simp only [hin, if_false]

/-- With text and a destination in `[0, k)`, `msg` is populated from the input. -/
theorem inject_accepted (k : Nat) (msg : Message) (p : Prompt) (d : Int)
    (hin : 0 < (readInput p.typed).2) (hs : p.scanned = some d) (h0 : 0 ≤ d) (hk : d < (k : Int)) :
    inject k msg p =
      { dest := d, len := ((readInput p.typed).2 : Int),
        text := (readInput p.typed).1.take (readInput p.typed).2
                  ++ msg.text.drop (readInput p.typed).2 } := by
  unfold inject
  have hlt := (readInput_bounds p.typed).1
  have hc : ¬ (d < 0 ∨ d ≥ (k : Int)) := by omega
  simp only [hin, if_true, hs, hc, if_false, hlt]

/-! ## Conservation of the token and of the record -/

/-- Changing one summand: the sum over the nodes after an update at `i < k`. -/
theorem sum_comp_update {α : Type} (k : Nat) (g : α → Nat) (f : Nat → α) (i : Nat)
    (hi : i < k) (v : α) :
    Finset.sum (Finset.range k) (fun x => g (Function.update f i v x)) + g (f i)
      = Finset.sum (Finset.range k) (fun x => g (f x)) + g v := by
  have hmem : i ∈ Finset.range k := Finset.mem_range.2 hi
  have h1 : (fun x => g (Function.update f i v x)) = Function.update (fun x => g (f x)) i (g v) := by
    funext x
    by_cases hx : x = i
    · subst hx; simp
    · simp [Function.update_noteq hx]
  rw [h1, Finset.sum_update_of_mem hmem, Finset.sdiff_singleton_eq_erase,
    ← Finset.add_sum_erase (Finset.range k) (fun x => g (f x)) hmem]
  omega

/-- A successful step of a node changes neither the number of token units
nor the number of records. -/
theorem peerStep_counts (k i : Nat) (p : Prompt) (s s' : Ring) (hk : 1 ≤ k) (hi : i < k)
    (h : peerStep k i p s = some s') :
    tokenUnits k s' = tokenUnits k s ∧ slotRecords k s' = slotRecords k s := by
  have hp : predIdx k i < k := predIdx_lt k i hk hi
  have t1 : holdsToken PC.awaitToken = false := rfl
  have t2 : holdsToken PC.readData = true := rfl
  have t3 : ∀ m, holdsToken (PC.writeData m) = true := fun _ => rfl
  have t4 : holdsToken PC.writeToken = true := rfl
  have r1 : holdsRecord PC.awaitToken = false := rfl
  have r2 : holdsRecord PC.readData = false := rfl
  have r3 : ∀ m, holdsRecord (PC.writeData m) = true := fun _ => rfl
  have r4 : holdsRecord PC.writeToken = false := rfl
  unfold peerStep at h
  unfold tokenUnits slotRecords
  cases hpc : s.pc i with
  | awaitToken =>
    rw [hpc] at h
    simp only at h
    by_cases h0 : s.tokenBuf (predIdx k i) = 0
    · rw [if_pos h0] at h; exact absurd h (by simp)
    · rw [if_neg h0] at h
      simp only [Option.some.injEq] at h
      subst h
      simp only
      have a := sum_comp_update k id s.tokenBuf (predIdx k i) hp (s.tokenBuf (predIdx k i) - 1)
      have b := sum_comp_update k (fun c => if holdsToken c then 1 else 0) s.pc i hi PC.readData
      have c := sum_comp_update k (fun c => if holdsRecord c then 1 else 0) s.pc i hi PC.readData
      simp only [id, hpc, t1, t2, t3, t4, r1, r2, r3, r4] at a b c
      simp only [if_true, Bool.false_eq_true, if_false] at b c
      constructor <;> omega
  | readData =>
    rw [hpc] at h
    simp only at h
    cases hd : s.dataBuf (predIdx k i) with
    | nil => rw [hd] at h; exact absurd h (by simp)
    | cons msg rest =>
      rw [hd] at h
      simp only [Option.some.injEq] at h
      subst h
      simp only
      have a := sum_comp_update k List.length s.dataBuf (predIdx k i) hp rest
      have b := sum_comp_update k (fun c => if holdsToken c then 1 else 0) s.pc i hi
        (PC.writeData (policy k i p msg))
      have c := sum_comp_update k (fun c => if holdsRecord c then 1 else 0) s.pc i hi
        (PC.writeData (policy k i p msg))
      simp only [hd, hpc, t1, t2, t3, t4, r1, r2, r3, r4, List.length_cons] at a b c
      simp only [if_true, Bool.false_eq_true, if_false] at b c
      constructor <;> omega
  | writeData m =>
    rw [hpc] at h
    simp only [Option.some.injEq] at h
    subst h
    simp only
    have a := sum_comp_update k List.length s.dataBuf i hi (s.dataBuf i ++ [m])
    have b := sum_comp_update k (fun c => if holdsToken c then 1 else 0) s.pc i hi PC.writeToken
    have c := sum_comp_update k (fun c => if holdsRecord c then 1 else 0) s.pc i hi PC.writeToken
    simp only [hpc, t1, t2, t3, t4, r1, r2, r3, r4, List.length_append, List.length_singleton] at a b c
    simp only [if_true, Bool.false_eq_true, if_false] at b c
    constructor <;> omega
  | writeToken =>
    rw [hpc] at h
    simp only [Option.some.injEq] at h
    subst h
    simp only
    have a := sum_comp_update k id s.tokenBuf i hi (s.tokenBuf i + 1)
    have b := sum_comp_update k (fun c => if holdsToken c then 1 else 0) s.pc i hi PC.awaitToken
    have c := sum_comp_update k (fun c => if holdsRecord c then 1 else 0) s.pc i hi PC.awaitToken
    simp only [id, hpc, t1, t2, t3, t4, r1, r2, r3, r4] at a b c
    simp only [if_true, Bool.false_eq_true, if_false] at b c
    constructor <;> omega

/-- The seeded ring holds one token unit and one record. -/
theorem seeded_counts (k : Nat) (hk : 1 ≤ k) :
    tokenUnits k (seeded k) = 1 ∧ slotRecords k (seeded k) = 1 := by
  unfold tokenUnits slotRecords seeded
  have a := sum_comp_update k id (fun _ => 0) (k - 1) (by omega) 1
  have b := sum_comp_update k List.length (fun _ => ([] : List Message)) (k - 1) (by omega)
    [emptyMessage]
  simp only [id, List.length_nil, List.length_singleton, Finset.sum_const_zero] at a b
  simp only [holdsToken, holdsRecord, Bool.false_eq_true, if_false, Finset.sum_const_zero]
  constructor <;> omega

/-- Every reachable state holds one token unit and one record. -/
theorem reachable_counts (k : Nat) (hk : 1 ≤ k) (s : Ring) (h : Reachable k s) :
    tokenUnits k s = 1 ∧ slotRecords k s = 1 := by
  induction h with
  | seed => exact seeded_counts k hk
  | step i p _ hi hs ih =>
    have := peerStep_counts k i p _ _ hk hi hs
    omega

/-- Two distinct nodes contribute two summands to a sum over the nodes. -/
theorem two_le_sum_of_two (k : Nat) (g : Nat → Nat) (i j : Nat) (hi : i < k) (hj : j < k)
    (hne : i ≠ j) : g i + g j ≤ Finset.sum (Finset.range k) g := by
  have hsub : ({i, j} : Finset Nat) ⊆ Finset.range k := by
    intro x hx
    simp only [Finset.mem_insert, Finset.mem_singleton] at hx
    rcases hx with rfl | rfl <;> simp [hi, hj]
  have hle : Finset.sum {i, j} g ≤ Finset.sum (Finset.range k) g :=
    Finset.sum_le_sum_of_subset hsub
  rwa [Finset.sum_pair hne] at hle

/-! ## The invariant of the reachable states -/

theorem wellFormed_empty : WellFormed emptyMessage := by
  refine ⟨by simp [emptyMessage], by simp [emptyMessage], by simp [emptyMessage], ?_⟩
  intro idx h _
  simp [emptyMessage]

theorem good_empty (k j : Nat) : Good k j emptyMessage :=
  ⟨wellFormed_empty, fun _ => rfl, Or.inl rfl⟩

theorem diagnose_snd (myId : Int) (msg : Message) :
    (diagnose myId msg).2 = if msg.dest ≠ -1 ∧ msg.dest = myId then emptyMessage else msg := by
  unfold diagnose emptyMessage
  by_cases h1 : msg.dest = -1
  · simp [h1]
  · by_cases h2 : msg.dest = myId
    · subst h2; simp [h1]
    · simp [h1, h2]

theorem inject_good (k : Nat) (msg : Message) (p : Prompt) (hw : WellFormed msg)
    (hd : msg.dest = -1) (hl : msg.len = 0) : Good k 0 (inject k msg p) := by
  by_cases hin : injects k p = false
  · rw [inject_declined k msg p hin]
    exact ⟨hw, fun _ => hl, Or.inl hd⟩
  · have hin' : injects k p = true := by simpa using hin
    unfold injects at hin'
    simp only [Bool.and_eq_true, decide_eq_true_eq] at hin'
    obtain ⟨hpos, hsc⟩ := hin'
    cases hs : p.scanned with
    | none => rw [hs] at hsc; simp at hsc
    | some d =>
      rw [hs] at hsc
      simp only [Bool.not_eq_true', Bool.or_eq_false_iff, decide_eq_false_iff_not, not_lt,
        ge_iff_le, not_le] at hsc
      obtain ⟨h0, hk⟩ := hsc
      rw [inject_accepted k msg p d hpos hs h0 hk]
      obtain ⟨hlt, hle⟩ := readInput_bounds p.typed
      obtain ⟨_, _, hlen, hz⟩ := hw
      have hM : MAXMSG = 512 := rfl
      refine ⟨⟨?_, ?_, ?_, ?_⟩, ?_, ?_⟩
      · simp
      · simp only; omega
      · simp only [List.length_append, List.length_take, List.length_drop]; omega
      · intro idx hidx hge
        simp only at hge
        have hge' : (readInput p.typed).2 ≤ idx := by omega
        have htl : ((readInput p.typed).1.take (readInput p.typed).2).length
            = (readInput p.typed).2 := by
          simp only [List.length_take]; omega
        simp only
        rw [List.getElem_append_right (by omega)]
        simp only [List.getElem_drop, htl]
        apply hz
        rw [hl]; omega
      · intro h; simp only at h; omega
      · simp only; omega

/-- A node that reads a record as its predecessor may write it writes a
record as it may write it itself. -/
theorem policy_good (k i : Nat) (p : Prompt) (msg : Message) (hk : 1 ≤ k) (hi : i < k)
    (hg : Good k (predIdx k i) msg) : Good k i (policy k i p msg) := by
  obtain ⟨hw, hl, hd⟩ := hg
  rw [predIdx_eq k i hk hi] at hd
  unfold policy
  by_cases h0 : i = 0
  · subst h0
    simp only [if_true] at hd ⊢
    unfold parentPolicy
    rw [diagnose_snd]
    have hd' : msg.dest = -1 ∨ msg.dest = 0 := by omega
    by_cases hc : msg.dest ≠ -1 ∧ msg.dest = (0 : Int)
    · rw [if_pos hc]
      exact inject_good k _ p wellFormed_empty rfl rfl
    · rw [if_neg hc]
      have hm : msg.dest = -1 := by
        rcases hd' with h | h
        · exact h
        · exact absurd ⟨by omega, h⟩ hc
      exact inject_good k _ p hw hm (hl hm)
  · simp only [h0, if_false] at hd ⊢
    rw [diagnose_snd]
    by_cases hc : msg.dest ≠ -1 ∧ msg.dest = (i : Int)
    · rw [if_pos hc]; exact good_empty k i
    · rw [if_neg hc]
      refine ⟨hw, hl, ?_⟩
      by_cases hm : msg.dest = -1
      · exact Or.inl hm
      · have hne : msg.dest ≠ (i : Int) := fun h => hc ⟨hm, h⟩
        omega

theorem branchEvent_parent (k : Nat) (msg : Message) (hk : 1 ≤ k)
    (hg : Good k (predIdx k 0) msg) (d : Int) : branchEvent 0 msg ≠ Event.forOther 0 d := by
  obtain ⟨_, _, hd⟩ := hg
  rw [predIdx_eq k 0 hk (by omega)] at hd
  simp only [if_true] at hd
  have hd' : msg.dest = -1 ∨ msg.dest = 0 := by omega
  unfold branchEvent diagnose
  rcases hd' with h | h
  · simp [h]
  · simp [h]

theorem branchEvent_child (i : Nat) (msg : Message) (hi : i ≠ 0) (d : Int) :
    branchEvent i msg ≠ Event.forOther 0 d := by
  unfold branchEvent
  cases (diagnose (i : Int) msg).1 <;> simp [hi]

theorem branchEvent_not_wrote (i : Nat) (msg : Message) (j : Nat) (m : Message) :
    branchEvent i msg ≠ Event.wrote j m := by
  unfold branchEvent
  cases (diagnose (i : Int) msg).1 <;> simp

theorem seeded_inv (k : Nat) : Inv k (seeded k) := by
  refine ⟨?_, ?_, ?_, ?_⟩
  · intro j _ m hm
    unfold seeded at hm
    simp only at hm
    by_cases hj : j = k - 1
    · subst hj
      simp only [Function.update_same, List.mem_singleton] at hm
      subst hm; exact good_empty _ _
    · rw [Function.update_noteq hj] at hm
      simp at hm
  · intro i _ m hm
    simp [seeded] at hm
  · intro i m hm
    simp [seeded] at hm
  · intro d hm
    simp [seeded] at hm

/-- A successful step of a node preserves the invariant. -/
theorem peerStep_inv (k i : Nat) (p : Prompt) (s s' : Ring) (hk : 1 ≤ k) (hi : i < k)
    (h : peerStep k i p s = some s') (hinv : Inv k s) : Inv k s' := by
  have hp : predIdx k i < k := predIdx_lt k i hk hi
  obtain ⟨hbuf, hpcs, hout, hoth⟩ := hinv
  unfold peerStep at h
  cases hpc : s.pc i with
  | awaitToken =>
    rw [hpc] at h
    simp only at h
    by_cases h0 : s.tokenBuf (predIdx k i) = 0
    · rw [if_pos h0] at h; exact absurd h (by simp)
    · rw [if_neg h0] at h
      simp only [Option.some.injEq] at h
      subst h
      refine ⟨hbuf, ?_, hout, hoth⟩
      intro i' hi' m hm
      simp only at hm
      by_cases he : i' = i
      · subst he; simp at hm
      · rw [Function.update_noteq he] at hm; exact hpcs i' hi' m hm
  | readData =>
    rw [hpc] at h
    simp only at h
    cases hd : s.dataBuf (predIdx k i) with
    | nil => rw [hd] at h; exact absurd h (by simp)
    | cons msg rest =>
      rw [hd] at h
      simp only [Option.some.injEq] at h
      subst h
      have hmsg : Good k (predIdx k i) msg := hbuf _ hp msg (by rw [hd]; simp)
      refine ⟨?_, ?_, ?_, ?_⟩
      · intro j hj m hm
        simp only at hm
        by_cases he : j = predIdx k i
        · subst he
          simp only [Function.update_same] at hm
          exact hbuf _ hj m (by rw [hd]; exact List.mem_cons_of_mem _ hm)
        · rw [Function.update_noteq he] at hm; exact hbuf j hj m hm
      · intro i' hi' m hm
        simp only at hm
        by_cases he : i' = i
        · subst he
          simp only [Function.update_same, PC.writeData.injEq] at hm
          subst hm
          exact policy_good k i' p msg hk hi hmsg
        · rw [Function.update_noteq he] at hm; exact hpcs i' hi' m hm
      · intro i' m hm
        simp only [List.mem_append, List.mem_singleton] at hm
        rcases hm with hm | hm
        · exact hout i' m hm
        · exact absurd hm.symm (branchEvent_not_wrote i msg i' m)
      · intro d hm
        simp only [List.mem_append, List.mem_singleton] at hm
        rcases hm with hm | hm
        · exact hoth d hm
        · by_cases h0 : i = 0
          · subst h0; exact branchEvent_parent k msg hk hmsg d hm.symm
          · exact branchEvent_child i msg h0 d hm.symm
  | writeData m0 =>
    rw [hpc] at h
    simp only [Option.some.injEq] at h
    subst h
    have hm0 : Good k i m0 := hpcs i hi m0 hpc
    refine ⟨?_, ?_, ?_, ?_⟩
    · intro j hj m hm
      simp only at hm
      by_cases he : j = i
      · subst he
        simp only [Function.update_same, List.mem_append, List.mem_singleton] at hm
        rcases hm with hm | hm
        · exact hbuf j hj m hm
        · subst hm; exact hm0
      · rw [Function.update_noteq he] at hm; exact hbuf j hj m hm
    · intro i' hi' m hm
      simp only at hm
      by_cases he : i' = i
      · subst he; simp at hm
      · rw [Function.update_noteq he] at hm; exact hpcs i' hi' m hm
    · intro i' m hm
      simp only [List.mem_append, List.mem_singleton, Event.wrote.injEq] at hm
      rcases hm with hm | ⟨rfl, rfl⟩
      · exact hout i' m hm
      · exact ⟨hi, hm0⟩
    · intro d hm
      simp only [List.mem_append, List.mem_singleton] at hm
      rcases hm with hm | hm
      · exact hoth d hm
      · simp at hm
  | writeToken =>
    rw [hpc] at h
    simp only [Option.some.injEq] at h
    subst h
    refine ⟨hbuf, ?_, ?_, ?_⟩
    · intro i' hi' m hm
      simp only at hm
      by_cases he : i' = i
      · subst he; simp at hm
      · rw [Function.update_noteq he] at hm; exact hpcs i' hi' m hm
    · intro i' m hm
      simp only [List.mem_append, List.mem_singleton] at hm
      rcases hm with hm | hm
      · exact hout i' m hm
      · simp at hm
    · intro d hm
      simp only [List.mem_append, List.mem_singleton] at hm
      rcases hm with hm | hm
      · exact hoth d hm
      · simp at hm

/-- The invariant holds in every reachable state. -/
theorem reachable_inv (k : Nat) (hk : 1 ≤ k) (s : Ring) (h : Reachable k s) : Inv k s := by
  induction h with
  | seed => exact seeded_inv k
  | step i p _ hi hs ih => exact peerStep_inv k i p _ _ hk hi hs ih

/-! ## Hops of the ring -/

/-- A full iteration of node `i` from the ring parked on its inbound pipe
leaves the ring parked on its outbound pipe, with the record its policy
yields, having printed the branch taken and the two writes. -/
theorem hop_parkedOut (k i : Nat) (p : Prompt) (r : Message) (o : List Event) :
    hop k i p (parkedOut (predIdx k i) r o)
      = some (parkedOut i (policy k i p r)
          (o ++ [branchEvent i r, Event.wrote i (policy k i p r), Event.passed i])) := by
  unfold hop parkedOut peerStep
  simp only [Function.update_same, Option.bind_eq_bind, Option.some_bind, one_ne_zero,
    if_false, Function.update_idem, List.nil_append, List.append_assoc, List.singleton_append,
    Option.some.injEq]
  have h1 : Function.update (fun _ : Nat => PC.awaitToken) i PC.awaitToken
      = fun _ => PC.awaitToken := by
    funext x; by_cases hx : x = i <;> simp [Function.update, hx]
  have h2 : Function.update (fun _ : Nat => (0 : Nat)) (predIdx k i) (1 - 1) = fun _ => 0 := by
    funext x; by_cases hx : x = predIdx k i <;> simp [Function.update, hx]
  have h3 : Function.update (fun _ : Nat => ([] : List Message)) (predIdx k i) []
      = fun _ => [] := by
    funext x; by_cases hx : x = predIdx k i <;> simp [Function.update, hx]
  simp only [h1, h2, h3, List.nil_append, zero_add]
  rfl

theorem deliveries_append (a b : List Event) :
    deliveries (a ++ b) = deliveries a ++ deliveries b := by
  induction a with
  | nil => rfl
  | cons e a ih => cases e <;> simp [deliveries, ih]

theorem writes_append (a b : List Event) : writes (a ++ b) = writes a ++ writes b := by
  induction a with
  | nil => rfl
  | cons e a ih => cases e <;> simp [writes, ih]

theorem deliveries_hop (i : Nat) (r m' : Message) (o : List Event) :
    deliveries (o ++ [branchEvent i r, Event.wrote i m', Event.passed i])
      = deliveries o ++ (if (diagnose (i : Int) r).1 = Branch.forMe
          then [(i, r.text.take r.len.toNat)] else []) := by
  rw [deliveries_append]
  congr 1
  unfold branchEvent
  cases (diagnose (i : Int) r).1 <;> simp [deliveries]

theorem writes_hop (i : Nat) (r m' : Message) (o : List Event) :
    writes (o ++ [branchEvent i r, Event.wrote i m', Event.passed i])
      = writes o ++ [(i, m')] := by
  rw [writes_append]
  congr 1
  unfold branchEvent
  cases (diagnose (i : Int) r).1 <;> simp [writes]

theorem diagnose_empty (myId : Int) :
    diagnose myId emptyMessage = (Branch.headerEmpty, emptyMessage) := by
  simp [diagnose, emptyMessage]

theorem diagnose_other (myId : Int) (m : Message) (h1 : m.dest ≠ -1) (h2 : m.dest ≠ myId) :
    diagnose myId m = (Branch.forOther, m) := by
  simp [diagnose, h1, h2]

theorem diagnose_mine (myId : Int) (m : Message) (h1 : m.dest ≠ -1) (h2 : m.dest = myId) :
    diagnose myId m = (Branch.forMe, emptyMessage) := by
  subst h2
  simp [diagnose, h1, emptyMessage]

theorem policy_declined (k i : Nat) (p : Prompt) (r : Message)
    (h : injects k p = false) : policy k i p r = (diagnose (i : Int) r).2 := by
  unfold policy
  by_cases h0 : i = 0
  · subst h0
    simp only [if_true]
    unfold parentPolicy
    exact inject_declined k _ p h
  · simp only [h0, if_false]

/-- The branch taken at hop `n + 1` when a record for node `d` started on
node 0's outbound pipe and nothing was injected; `H` is the delivery hop. -/
theorem hop_case (k : Nat) (hk : 1 ≤ k) (m : Message) (d : Nat) (hd : d < k)
    (hm : m.dest = (d : Int)) (n H : Nat) (hH : (if d = 0 then k else d) = H) :
    diagnose (((n + 1) % k : Nat) : Int) (if n < H then m else emptyMessage)
      = if n + 1 < H then (Branch.forOther, m)
        else if n + 1 = H then (Branch.forMe, emptyMessage)
        else (Branch.headerEmpty, emptyMessage) := by
  have hh : 1 ≤ H ∧ H ≤ k := by rw [← hH]; split <;> omega
  by_cases c1 : n + 1 < H
  · have hi : (n + 1) % k = n + 1 := Nat.mod_eq_of_lt (by omega)
    rw [if_pos c1, if_pos (by omega), hi]
    apply diagnose_other
    · omega
    · rw [hm]
      by_cases hd0 : d = 0
      · subst hd0; simp only [Nat.cast_add, Nat.cast_one]; omega
      · rw [if_neg hd0] at hH; omega
  · rw [if_neg c1]
    by_cases c2 : n + 1 = H
    · rw [if_pos c2, if_pos (by omega)]
      have hi : (n + 1) % k = d := by
        by_cases hd0 : d = 0
        · rw [if_pos hd0] at hH
          rw [c2, ← hH, hd0, Nat.mod_self]
        · rw [if_neg hd0] at hH
          rw [c2, ← hH]; exact Nat.mod_eq_of_lt hd
      rw [hi]
      exact diagnose_mine _ m (by omega) hm
    · rw [if_neg c2, if_neg (by omega)]
      exact diagnose_empty _

/-- The state and the output after `n` hops when a record for node `d`
started on node 0's outbound pipe and nothing was injected. -/
theorem circulate_trace (k : Nat) (hk : 1 ≤ k) (m : Message) (d : Nat) (hd : d < k)
    (hm : m.dest = (d : Int)) (prompts : Nat → Prompt)
    (hno : ∀ t, injects k (prompts t) = false) (n : Nat) :
    ∃ o, circulate k prompts n (parked 0 m)
        = some (parkedOut (n % k) (if n < (if d = 0 then k else d) then m else emptyMessage) o) ∧
      deliveries o
        = (if n < (if d = 0 then k else d) then []
           else [(d, m.text.take m.len.toNat)]) ∧
      writes o = (List.range n).map (fun t =>
        ((t + 1) % k, if t + 1 < (if d = 0 then k else d) then m else emptyMessage)) := by
  have hh : 1 ≤ (if d = 0 then k else d) ∧ (if d = 0 then k else d) ≤ k := by
    split <;> omega
  generalize hH : (if d = 0 then k else d) = H at hh ⊢
  induction n with
  | zero =>
    refine ⟨[], ?_, ?_, ?_⟩
    · have : 0 < H := by omega
      simp [circulate, parked, this]
    · have : 0 < H := by omega
      simp [deliveries, this]
    · simp [writes]
  | succ n ih =>
    obtain ⟨o, hc, hdl, hwr⟩ := ih
    have hpred := predIdx_succ_mod k n hk
    have hstep := hop_parkedOut k ((n + 1) % k) (prompts n)
      (if n < H then m else emptyMessage) o
    rw [hpred] at hstep
    have hcase := hop_case k hk m d hd hm n H hH
    have hpol : policy k ((n + 1) % k) (prompts n) (if n < H then m else emptyMessage)
        = if n + 1 < H then m else emptyMessage := by
      rw [policy_declined k _ _ _ (hno n), hcase]
      by_cases c1 : n + 1 < H
      · simp [c1]
      · by_cases c2 : n + 1 = H <;> simp [c1, c2]
    rw [hpol] at hstep
    refine ⟨o ++ [branchEvent ((n + 1) % k) (if n < H then m else emptyMessage),
      Event.wrote ((n + 1) % k) (if n + 1 < H then m else emptyMessage),
      Event.passed ((n + 1) % k)], ?_, ?_, ?_⟩
    · simp only [circulate, hc, Option.bind_eq_bind, Option.some_bind]
      exact hstep
    · rw [deliveries_hop, hdl, hcase]
      by_cases c1 : n + 1 < H
      · have : n < H := by omega
        simp [c1, this]
      · by_cases c2 : n + 1 = H
        · have h1 : n < H := by omega
          have h2 : (n + 1) % k = d := by
            by_cases hd0 : d = 0
            · rw [if_pos hd0] at hH
              rw [c2, ← hH, hd0, Nat.mod_self]
            · rw [if_neg hd0] at hH
              rw [c2, ← hH]; exact Nat.mod_eq_of_lt hd
          have h3 : H % k = d := by rw [← c2]; exact h2
          simp [c1, c2, h1, h2, h3]
        · have h1 : ¬ n < H := by omega
          simp [c1, c2, h1]
    · rw [writes_hop, hwr, List.range_succ, List.map_append]
      rfl

set_option maxRecDepth 40000 in
/-- The scenario of three nodes and the record `{dest 2, "hi"}` on node 0's
outbound pipe, evaluated: node 1 reports a message for node 2 and writes it
on, node 2 prints `hi` and writes the empty record, node 0 finds the header
empty. -/
theorem scenario_three_nodes :
    (circulate 3 (fun _ => (⟨[], none⟩ : Prompt)) 3
        (parked 0 ⟨2, 2, [104, 105] ++ List.replicate 510 0⟩)).map Ring.out
      = some [Event.forOther 1 2,
              Event.wrote 1 ⟨2, 2, [104, 105] ++ List.replicate 510 0⟩, Event.passed 1,
              Event.forMe 2 [104, 105], Event.wrote 2 emptyMessage, Event.passed 2,
              Event.headerEmpty 0, Event.wrote 0 emptyMessage, Event.passed 0] := by
  decide

/-- A full iteration of a node leads from a reachable state to a reachable state. -/
theorem reachable_hop (k i : Nat) (p : Prompt) (s s' : Ring) (hi : i < k)
    (hr : Reachable k s) (h : hop k i p s = some s') : Reachable k s' := by
  unfold hop at h
  cases h1 : peerStep k i p s with
  | none => rw [h1] at h; simp at h
  | some s1 =>
    rw [h1] at h
    simp only [Option.bind_eq_bind, Option.some_bind] at h
    cases h2 : peerStep k i p s1 with
    | none => rw [h2] at h; simp at h
    | some s2 =>
      rw [h2] at h
      simp only [Option.some_bind] at h
      cases h3 : peerStep k i p s2 with
      | none => rw [h3] at h; simp at h
      | some s3 =>
        rw [h3] at h
        simp only [Option.some_bind] at h
        exact Reachable.step i p
          (Reachable.step i p (Reachable.step i p (Reachable.step i p hr hi h1) hi h2) hi h3) hi h

/-- The state after node 0's first iteration is reachable, whatever the user
answered. -/
theorem reachable_after_parent (k : Nat) (hk : 1 ≤ k) (p : Prompt) :
    Reachable k (parkedOut 0 (policy k 0 p emptyMessage)
      [branchEvent 0 emptyMessage, Event.wrote 0 (policy k 0 p emptyMessage), Event.passed 0]) := by
  have h := hop_parkedOut k 0 p emptyMessage []
  have hp : predIdx k 0 = k - 1 := by
    rw [predIdx_eq k 0 hk (by omega)]; simp
  rw [hp] at h
  exact reachable_hop k 0 p (seeded k) _ (by omega) Reachable.seed h

/-! ## The claims -/

/-- C1 (delivery correctness). In a ring of `k ≥ 1` nodes, let a record `m`
with `dest = d`, `d < k`, sit with the token on node 0's outbound pipe, and let
the user inject nothing. Then for every `n` the first `n` hops in successor
order all go through, and with `h = d` for `d ≥ 1` and `h = k` for `d = 0`
(so `1 ≤ h ≤ k`): the deliveries printed are none before hop `h` and exactly
one from hop `h` on, made by node `d` with the first `len` bytes of the body;
the record written at hop `t < h` is `m` itself and the record written at hop
`h` and at every later hop is the empty record, whose `dest` is -1; and after
the `n` hops the record and token sit on pipe `n % k`. -/
theorem delivery_exactly_once (k : Nat) (hk : 1 ≤ k) (d : Nat) (hd : d < k) (m : Message)
    (hm : m.dest = (d : Int)) (prompts : Nat → Prompt)
    (hno : ∀ t, injects k (prompts t) = false) (n : Nat) :
    (1 ≤ (if d = 0 then k else d) ∧ (if d = 0 then k else d) ≤ k) ∧ emptyMessage.dest = -1 ∧
    ∃ o, circulate k prompts n (parked 0 m)
        = some (parkedOut (n % k) (if n < (if d = 0 then k else d) then m else emptyMessage) o) ∧
      deliveries o
        = (if n < (if d = 0 then k else d) then []
           else [(d, m.text.take m.len.toNat)]) ∧
      writes o = (List.range n).map (fun t =>
        ((t + 1) % k, if t + 1 < (if d = 0 then k else d) then m else emptyMessage)) := by
  refine ⟨by split <;> omega, rfl, ?_⟩
  exact circulate_trace k hk m d hd hm prompts hno n

/-- Witness for C1: `k = 3`, the record `{dest 2, "hi"}`, three hops. -/
theorem delivery_exactly_once_witness :
    (1 ≤ 3 ∧ 2 < 3 ∧
      (⟨2, 2, [104, 105] ++ List.replicate 510 0⟩ : Message).dest = ((2 : Nat) : Int) ∧
      ∀ t : Nat, injects 3 ((fun _ => (⟨[], none⟩ : Prompt)) t) = false) ∧
    ((1 ≤ (if 2 = 0 then 3 else 2) ∧ (if 2 = 0 then 3 else 2) ≤ 3) ∧ emptyMessage.dest = -1 ∧
    ∃ o, circulate 3 (fun _ => (⟨[], none⟩ : Prompt)) 3
          (parked 0 ⟨2, 2, [104, 105] ++ List.replicate 510 0⟩)
        = some (parkedOut (3 % 3)
            (if 3 < (if 2 = 0 then 3 else 2) then ⟨2, 2, [104, 105] ++ List.replicate 510 0⟩
             else emptyMessage) o) ∧
      deliveries o
        = (if 3 < (if 2 = 0 then 3 else 2) then []
           else [(2, (⟨2, 2, [104, 105] ++ List.replicate 510 0⟩ : Message).text.take
                      (⟨2, 2, [104, 105] ++ List.replicate 510 0⟩ : Message).len.toNat)]) ∧
      writes o = (List.range 3).map (fun t =>
        ((t + 1) % 3, if t + 1 < (if 2 = 0 then 3 else 2)
          then (⟨2, 2, [104, 105] ++ List.replicate 510 0⟩ : Message) else emptyMessage))) :=
  ⟨⟨by decide, by decide, rfl, fun _ => (by decide : injects 3 (⟨[], none⟩ : Prompt) = false)⟩,
   delivery_exactly_once 3 (by decide) 2 (by decide) ⟨2, 2, [104, 105] ++ List.replicate 510 0⟩
     rfl (fun _ => ⟨[], none⟩) (fun _ => (by decide : injects 3 (⟨[], none⟩ : Prompt) = false)) 3⟩

/-- C2 (token and slot uniqueness). In every state reachable from the seeded
ring of `k ≥ 1` nodes by successful steps, there is exactly one token unit
(buffered in a token pipe or held by a node between its token read and its
token write) and exactly one record (buffered in a data pipe or held by a
node); hence two nodes that are both between token read and token write are
the same node. -/
theorem token_and_slot_unique (k : Nat) (hk : 1 ≤ k) (s : Ring) (h : Reachable k s) :
    tokenUnits k s = 1 ∧ slotRecords k s = 1 ∧
    ∀ i j, i < k → j < k → holdsToken (s.pc i) = true → holdsToken (s.pc j) = true →
      i = j := by
  obtain ⟨ht, hs⟩ := reachable_counts k hk s h
  refine ⟨ht, hs, ?_⟩
  intro i j hi hj hti htj
  by_contra hne
  have h2 := two_le_sum_of_two k (fun x => if holdsToken (s.pc x) then 1 else 0) i j hi hj hne
  simp only [hti, htj, if_true] at h2
  unfold tokenUnits at ht
  omega

/-- Witness for C2: the seeded ring of three nodes. -/
theorem token_and_slot_unique_witness :
    (1 ≤ 3 ∧ Reachable 3 (seeded 3)) ∧
    (tokenUnits 3 (seeded 3) = 1 ∧ slotRecords 3 (seeded 3) = 1 ∧
    ∀ i j, i < 3 → j < 3 → holdsToken ((seeded 3).pc i) = true →
      holdsToken ((seeded 3).pc j) = true → i = j) :=
  ⟨⟨by decide, Reachable.seed⟩, token_and_slot_unique 3 (by decide) (seeded 3) Reachable.seed⟩

/-- C3 (non-interactive node policy). For a node id `myId ≥ 0`, whenever both
reads of an iteration of `childLoop` succeed, the record handed to the data
write equals the record read, `m`, when `m.dest = -1` or `m.dest ≠ myId`, and
equals the empty record (`dest = -1`, `len = 0`, `MAXMSG` zero bytes) when
`m.dest = myId`; in every case its `dest` is `m.dest` or -1. -/
theorem childLoop_forwards_or_empties (myId : Int) (hid : 0 ≤ myId) (rn : Int) (hrn : 0 < rn)
    (m : Message) (dw tw : Int) :
    ((m.dest = -1 ∨ m.dest ≠ myId) →
      (childLoopIter myId rn sizeofMessage m dw tw).written = some m) ∧
    (m.dest = myId →
      (childLoopIter myId rn sizeofMessage m dw tw).written
        = some { dest := -1, len := 0, text := List.replicate MAXMSG 0 }) ∧
    ∃ m', (childLoopIter myId rn sizeofMessage m dw tw).written = some m' ∧
      (m'.dest = m.dest ∨ m'.dest = -1) := by
  have hw : (childLoopIter myId rn sizeofMessage m dw tw).written
      = some (diagnose myId m).2 := by
    unfold childLoopIter
    have : ¬ rn ≤ 0 := by omega
    simp only [this, if_false, ne_eq, not_true_eq_false]
    split <;> [rfl; (split <;> rfl)]
  rw [hw, diagnose_snd]
  refine ⟨?_, ?_, ?_⟩
  · intro h
    have hc : ¬ (m.dest ≠ -1 ∧ m.dest = myId) := by
      rintro ⟨h1, h2⟩
      rcases h with h | h
      · exact h1 h
      · exact h h2
    rw [if_neg hc]
  · intro h
    have hc : m.dest ≠ -1 ∧ m.dest = myId := ⟨by omega, h⟩
    rw [if_pos hc]; rfl
  · by_cases hc : m.dest ≠ -1 ∧ m.dest = myId
    · rw [if_pos hc]; exact ⟨_, rfl, Or.inr rfl⟩
    · rw [if_neg hc]; exact ⟨_, rfl, Or.inl rfl⟩

/-- Witness for C3: node 2 reading a record for node 2. -/
theorem childLoop_forwards_or_empties_witness :
    ((0 : Int) ≤ 2 ∧ (0 : Int) < 1) ∧
    (((⟨2, 1, [7]⟩ : Message).dest = -1 ∨ (⟨2, 1, [7]⟩ : Message).dest ≠ 2) →
      (childLoopIter 2 1 sizeofMessage ⟨2, 1, [7]⟩ sizeofMessage 1).written
        = some ⟨2, 1, [7]⟩) ∧
    ((⟨2, 1, [7]⟩ : Message).dest = 2 →
      (childLoopIter 2 1 sizeofMessage ⟨2, 1, [7]⟩ sizeofMessage 1).written
        = some { dest := -1, len := 0, text := List.replicate MAXMSG 0 }) ∧
    ∃ m', (childLoopIter 2 1 sizeofMessage ⟨2, 1, [7]⟩ sizeofMessage 1).written = some m' ∧
      (m'.dest = (⟨2, 1, [7]⟩ : Message).dest ∨ m'.dest = -1) :=
  ⟨⟨by decide, by decide⟩,
   childLoop_forwards_or_empties 2 (by decide) 1 (by decide) ⟨2, 1, [7]⟩ sizeofMessage 1⟩

/-- C5 (an invalid destination is "no message"). In a ring of `k ≥ 1` nodes,
when the user entered a non-empty text (`inlen > 0`): if the destination
fails to scan, or is negative, or is `≥ k`, the prompt leaves every slot value
unchanged and an iteration whose reads and writes succeed hands the slot as it
stood after the three-way test to the data write, passes the token and goes on
looping; if the destination `d` is in `[0, k)`, the record handed to the data
write has `dest = d` and `len = inlen`. -/
theorem invalid_destination_keeps_slot (k : Nat) (hk : 1 ≤ k) (msg : Message) (p : Prompt)
    (hin : 0 < (readInput p.typed).2) :
    ((p.scanned = none ∨ ∃ d, p.scanned = some d ∧ (d < 0 ∨ d ≥ (k : Int))) →
      (∀ s, inject k s p = s) ∧
      parentLoopIter k 1 sizeofMessage msg p sizeofMessage 1
        = ⟨some (diagnose 0 msg).2, true, true⟩) ∧
    (∀ d, p.scanned = some d → 0 ≤ d → d < (k : Int) →
      ∃ m', (parentLoopIter k 1 sizeofMessage msg p sizeofMessage 1).written = some m' ∧
        m'.dest = d ∧ m'.len = ((readInput p.typed).2 : Int)) := by
  have hk' : (1 : Int) ≤ (k : Int) := by omega
  have hiter : parentLoopIter k 1 sizeofMessage msg p sizeofMessage 1
      = ⟨some (parentPolicy k msg p), true, true⟩ := by
    simp [parentLoopIter]
  constructor
  · intro hbad
    have hdec : injects k p = false := by
      unfold injects
      rcases hbad with h | ⟨d, h, hd⟩
      · simp [h]
      · rw [h]
        rcases hd with hd | hd
        · simp [hd]
        · simp [hd]
    refine ⟨fun s => inject_declined k s p hdec, ?_⟩
    rw [hiter]
    unfold parentPolicy
    rw [inject_declined k _ p hdec]
  · intro d hs h0 hlt
    rw [hiter]
    refine ⟨_, rfl, ?_⟩
    unfold parentPolicy
    rw [inject_accepted k _ p d hin hs h0 hlt]
    exact ⟨rfl, rfl⟩

/-- Witness for C5: `k = 2`, the user types `yo` and the destination 5. -/
theorem invalid_destination_keeps_slot_witness :
    (1 ≤ 2 ∧ 0 < (readInput (⟨[121, 111, 10], some 5⟩ : Prompt).typed).2) ∧
    ((((⟨[121, 111, 10], some 5⟩ : Prompt).scanned = none ∨
        ∃ d, (⟨[121, 111, 10], some 5⟩ : Prompt).scanned = some d ∧ (d < 0 ∨ d ≥ ((2 : Nat) : Int))) →
      (∀ s, inject 2 s ⟨[121, 111, 10], some 5⟩ = s) ∧
      parentLoopIter 2 1 sizeofMessage emptyMessage ⟨[121, 111, 10], some 5⟩ sizeofMessage 1
        = ⟨some (diagnose 0 emptyMessage).2, true, true⟩) ∧
    (∀ d, (⟨[121, 111, 10], some 5⟩ : Prompt).scanned = some d → 0 ≤ d → d < ((2 : Nat) : Int) →
      ∃ m', (parentLoopIter 2 1 sizeofMessage emptyMessage ⟨[121, 111, 10], some 5⟩
          sizeofMessage 1).written = some m' ∧
        m'.dest = d ∧ m'.len = ((readInput (⟨[121, 111, 10], some 5⟩ : Prompt).typed).2 : Int))) :=
  ⟨⟨by decide, by decide⟩,
   invalid_destination_keeps_slot 2 (by decide) emptyMessage ⟨[121, 111, 10], some 5⟩
     (by decide)⟩

/-- C6 (ring wiring and exclusive endpoint ownership). For `k ≥ 1` and pairwise
distinct pipe descriptors: the source's index `(i - 1 + k) % k` is the
predecessor of `i`; after its close loop node `i < k` still holds an endpoint
exactly when it is the read end of data or token pipe `(i - 1 + k) % k` or the
write end of data or token pipe `i`, every other endpoint being closed; each of
the `4k` endpoints is held by exactly one node; and the node holding the
read end of pipe `j`, data or token, is `(j + 1) % k`. -/
theorem ring_wiring_exclusive (k : Nat) (hk : 1 ≤ k) (dataPipe tokenPipe : PipeTable)
    (hd : DistinctFds k dataPipe tokenPipe) :
    (∀ i, i < k → predIdx k i = (i + k - 1) % k ∧
      ∀ c j e, j < k → e < 2 → (Keeps k i dataPipe tokenPipe c j e ↔ Assigned k i j e)) ∧
    (∀ c j e, j < k → e < 2 → ∃! i, i < k ∧ Keeps k i dataPipe tokenPipe c j e) ∧
    (∀ c j i, j < k → i < k → (Keeps k i dataPipe tokenPipe c j 0 ↔ i = (j + 1) % k)) := by
  refine ⟨?_, ?_, ?_⟩
  · intro i hi
    refine ⟨?_, fun c j e hj he => keeps_iff_assigned k hk dataPipe tokenPipe hd i hi c j e hj he⟩
    rw [predIdx_eq k i hk hi]
    by_cases h0 : i = 0
    · subst h0
      simp only [if_true, Nat.zero_add]
      exact (Nat.mod_eq_of_lt (by omega)).symm
    · rw [if_neg h0]
      have : i + k - 1 = (i - 1) + k := by omega
      rw [this, Nat.add_mod_right]
      exact (Nat.mod_eq_of_lt (by omega)).symm
  · intro c j e hj he
    have he' : e = 0 ∨ e = 1 := by omega
    have hm : (j + 1) % k < k := Nat.mod_lt _ (by omega)
    rcases he' with rfl | rfl
    · refine ⟨(j + 1) % k, ⟨hm, ?_⟩, ?_⟩
      · rw [keeps_iff_assigned k hk dataPipe tokenPipe hd _ hm c j 0 hj (by omega)]
        exact Or.inl ⟨(predIdx_eq_iff k _ j hk hm hj).2 rfl, rfl⟩
      · rintro i ⟨hi, hkeep⟩
        rw [keeps_iff_assigned k hk dataPipe tokenPipe hd i hi c j 0 hj (by omega)] at hkeep
        rcases hkeep with ⟨h, _⟩ | ⟨_, h⟩
        · exact (predIdx_eq_iff k i j hk hi hj).1 h
        · omega
    · refine ⟨j, ⟨hj, ?_⟩, ?_⟩
      · rw [keeps_iff_assigned k hk dataPipe tokenPipe hd j hj c j 1 hj (by omega)]
        exact Or.inr ⟨rfl, rfl⟩
      · rintro i ⟨hi, hkeep⟩
        rw [keeps_iff_assigned k hk dataPipe tokenPipe hd i hi c j 1 hj (by omega)] at hkeep
        rcases hkeep with ⟨_, h⟩ | ⟨h, _⟩
        · omega
        · exact h.symm
  · intro c j i hj hi
    rw [keeps_iff_assigned k hk dataPipe tokenPipe hd i hi c j 0 hj (by omega)]
    constructor
    · rintro (⟨h, _⟩ | ⟨_, h⟩)
      · exact (predIdx_eq_iff k i j hk hi hj).1 h
      · omega
    · intro h
      exact Or.inl ⟨(predIdx_eq_iff k i j hk hi hj).2 h, rfl⟩

/-- Witness for C6: three nodes, descriptors 3 to 14. -/
theorem ring_wiring_exclusive_witness :
    (1 ≤ 3 ∧ DistinctFds 3 (fun j e => 3 + 4 * (j : Int) + (e : Int))
      (fun j e => 5 + 4 * (j : Int) + (e : Int))) ∧
    ((∀ i, i < 3 → predIdx 3 i = (i + 3 - 1) % 3 ∧
      ∀ c j e, j < 3 → e < 2 →
        (Keeps 3 i (fun j e => 3 + 4 * (j : Int) + (e : Int))
            (fun j e => 5 + 4 * (j : Int) + (e : Int)) c j e ↔ Assigned 3 i j e)) ∧
    (∀ c j e, j < 3 → e < 2 → ∃! i, i < 3 ∧
        Keeps 3 i (fun j e => 3 + 4 * (j : Int) + (e : Int))
          (fun j e => 5 + 4 * (j : Int) + (e : Int)) c j e) ∧
    (∀ c j i, j < 3 → i < 3 →
        (Keeps 3 i (fun j e => 3 + 4 * (j : Int) + (e : Int))
          (fun j e => 5 + 4 * (j : Int) + (e : Int)) c j 0 ↔ i = (j + 1) % 3))) :=
  ⟨⟨by decide, distinct_example⟩,
   ring_wiring_exclusive 3 (by decide) _ _ distinct_example⟩

/-- C7 (interrupt shutdown) fails on the descriptors: in a ring of two nodes
whose pipes got the descriptors 3 to 10 and whose child got pid 101, once
`main` has wired node 0 to the descriptors 7, 4, 9 and 6, `handleSigInt`
signals and waits on pid 101 once each but closes descriptor 0 four times and
none of the descriptors node 0 holds. -/
theorem handleSigInt_closes_descriptor_zero :
    (mainWired (fun i => 100 + (i : Int)) 2 (fun j e => 3 + 4 * (j : Int) + (e : Int))
        (fun j e => 5 + 4 * (j : Int) + (e : Int))).2 = ⟨7, 4, 9, 6⟩ ∧
    killsOf (handleSigInt (mainWired (fun i => 100 + (i : Int)) 2
        (fun j e => 3 + 4 * (j : Int) + (e : Int))
        (fun j e => 5 + 4 * (j : Int) + (e : Int))).1) = [101] ∧
    waitsOf (handleSigInt (mainWired (fun i => 100 + (i : Int)) 2
        (fun j e => 3 + 4 * (j : Int) + (e : Int))
        (fun j e => 5 + 4 * (j : Int) + (e : Int))).1) = [101] ∧
    closesOf (handleSigInt (mainWired (fun i => 100 + (i : Int)) 2
        (fun j e => 3 + 4 * (j : Int) + (e : Int))
        (fun j e => 5 + 4 * (j : Int) + (e : Int))).1) = [0, 0, 0, 0] := by
  decide

/-- C8 (`readn` is transparent to `EINTR`). For every `n`: two scripts of
`read` outcomes that differ only in `EINTR` outcomes give the same return
value and the same stored bytes (and block alike); and after a prefix of
`EINTR`s and non-empty deliveries totalling fewer than `n` bytes, an end of
file makes `readn` return the number of bytes received so far, another failure
makes it return -1, and a delivery completing the `n` bytes makes it return
`n` with the first `n` bytes stored. With `n = 0` it returns 0 at once. -/
theorem readn_transparent_to_eintr (n : Nat) :
    (∀ s₁ s₂ : List ReadOutcome, stripEintr s₁ = stripEintr s₂ → readn s₁ n = readn s₂ n) ∧
    (∀ pre rest : List ReadOutcome, Benign pre → (payload pre).length < n →
      readn (pre ++ ReadOutcome.eof :: rest) n
        = some (((payload pre).length : Int), payload pre) ∧
      readn (pre ++ ReadOutcome.failure :: rest) n = some (-1, payload pre) ∧
      ∀ bs : List Nat, n ≤ (payload pre).length + bs.length →
        readn (pre ++ ReadOutcome.bytes bs :: rest) n
          = some ((n : Int), (payload pre ++ bs).take n)) ∧
    (n = 0 → ∀ s : List ReadOutcome, readn s n = some (0, [])) := by
  refine ⟨?_, ?_, ?_⟩
  · intro s₁ s₂ h
    unfold readn
    rw [readnLoop_strip n s₁, readnLoop_strip n s₂, h]
  · intro pre rest hb hlt
    unfold readn
    have hpos : 0 < n - (payload pre).length := by omega
    refine ⟨?_, ?_, ?_⟩
    · rw [readnLoop_benign_front n _ pre n [] hb hlt]
      simp only [readnLoop, hpos, if_true, List.nil_append]
      congr 2
      omega
    · rw [readnLoop_benign_front n _ pre n [] hb hlt]
      simp only [readnLoop, hpos, if_true, List.nil_append]
    · intro bs hbs
      rw [readnLoop_benign_front n _ pre n [] hb hlt,
        readnLoop_fill n _ bs rest _ hpos (by omega)]
      have htk : (payload pre ++ bs).take n
          = payload pre ++ bs.take (n - (payload pre).length) := by
        rw [List.take_append_eq_append_take, List.take_of_length_le (by omega)]
      rw [htk, List.nil_append]
  · intro h0 s
    subst h0
    unfold readn
    cases s <;> simp [readnLoop]

/-- Witness for C8: four bytes wanted, two interrupted reads. -/
theorem readn_transparent_to_eintr_witness :
    (stripEintr [ReadOutcome.eintr, ReadOutcome.bytes [1, 2], ReadOutcome.eintr,
        ReadOutcome.bytes [3, 4]]
      = stripEintr [ReadOutcome.bytes [1, 2], ReadOutcome.bytes [3, 4]] ∧
     Benign [ReadOutcome.eintr, ReadOutcome.bytes [1, 2]] ∧
     (payload [ReadOutcome.eintr, ReadOutcome.bytes [1, 2]]).length < 4) ∧
    (readn [ReadOutcome.eintr, ReadOutcome.bytes [1, 2], ReadOutcome.eintr,
        ReadOutcome.bytes [3, 4]] 4
      = readn [ReadOutcome.bytes [1, 2], ReadOutcome.bytes [3, 4]] 4 ∧
     readn ([ReadOutcome.eintr, ReadOutcome.bytes [1, 2]] ++ ReadOutcome.eof :: []) 4
      = some (((payload [ReadOutcome.eintr, ReadOutcome.bytes [1, 2]]).length : Int),
          payload [ReadOutcome.eintr, ReadOutcome.bytes [1, 2]])) :=
  have hb : Benign [ReadOutcome.eintr, ReadOutcome.bytes [1, 2]] := by
    intro o ho
    simp only [List.mem_cons, List.mem_singleton, List.not_mem_nil, or_false] at ho
    rcases ho with rfl | rfl
    · exact Or.inl rfl
    · exact Or.inr ⟨[1, 2], rfl, by decide⟩
  ⟨⟨by decide, hb, by decide⟩,
   (readn_transparent_to_eintr 4).1 _ _ (by decide),
   ((readn_transparent_to_eintr 4).2.1 [ReadOutcome.eintr, ReadOutcome.bytes [1, 2]] [] hb
      (by decide)).1⟩

/-- C9 (well-formed records on every edge). In every state reachable from the
seeded ring of `k ≥ 1` nodes, under any user input, every record a node has
written to its outbound data pipe, every record a node is about to write and
every record buffered in a data pipe has `0 ≤ len ≤ MAXMSG`, a body of
`MAXMSG` bytes and zero bytes from index `len` on. -/
theorem records_well_formed (k : Nat) (hk : 1 ≤ k) (s : Ring) (h : Reachable k s) :
    (∀ i m, Event.wrote i m ∈ s.out → WellFormed m) ∧
    (∀ i, i < k → ∀ m, s.pc i = PC.writeData m → WellFormed m) ∧
    (∀ j, j < k → ∀ m ∈ s.dataBuf j, WellFormed m) := by
  obtain ⟨hbuf, hpcs, hout, _⟩ := reachable_inv k hk s h
  exact ⟨fun i m hm => (hout i m hm).2.1, fun i hi m hm => (hpcs i hi m hm).1,
    fun j hj m hm => (hbuf j hj m hm).1⟩

/-- Witness for C9: two nodes, after node 0 has sent `hi` to node 1. -/
theorem records_well_formed_witness :
    (1 ≤ 2 ∧ Reachable 2 (parkedOut 0 (policy 2 0 ⟨[104, 105, 10], some 1⟩ emptyMessage)
      [branchEvent 0 emptyMessage,
       Event.wrote 0 (policy 2 0 ⟨[104, 105, 10], some 1⟩ emptyMessage), Event.passed 0])) ∧
    ((∀ i m, Event.wrote i m ∈ (parkedOut 0 (policy 2 0 ⟨[104, 105, 10], some 1⟩ emptyMessage)
      [branchEvent 0 emptyMessage,
       Event.wrote 0 (policy 2 0 ⟨[104, 105, 10], some 1⟩ emptyMessage), Event.passed 0]).out →
        WellFormed m) ∧
    (∀ i, i < 2 → ∀ m, (parkedOut 0 (policy 2 0 ⟨[104, 105, 10], some 1⟩ emptyMessage)
      [branchEvent 0 emptyMessage,
       Event.wrote 0 (policy 2 0 ⟨[104, 105, 10], some 1⟩ emptyMessage), Event.passed 0]).pc i
        = PC.writeData m → WellFormed m) ∧
    (∀ j, j < 2 → ∀ m ∈ (parkedOut 0 (policy 2 0 ⟨[104, 105, 10], some 1⟩ emptyMessage)
      [branchEvent 0 emptyMessage,
       Event.wrote 0 (policy 2 0 ⟨[104, 105, 10], some 1⟩ emptyMessage),
       Event.passed 0]).dataBuf j, WellFormed m)) :=
  ⟨⟨by decide, reachable_after_parent 2 (by decide) _⟩,
   records_well_formed 2 (by decide) _ (reachable_after_parent 2 (by decide) _)⟩

/-- C10 (what node 0 can read). In every state reachable from the seeded ring
of `k ≥ 1` nodes: every record buffered on node 0's inbound data pipe has
`dest = -1` or `dest = 0`, so that after the three-way test node 0 always
prompts over an empty header; every record buffered on any data pipe has
`dest = -1` or `0 ≤ dest < k`; and node 0 has never printed the "message for
another node" line. -/
theorem parent_reads_empty_or_own (k : Nat) (hk : 1 ≤ k) (s : Ring) (h : Reachable k s) :
    (∀ m ∈ s.dataBuf (predIdx k 0),
      (m.dest = -1 ∨ m.dest = 0) ∧ (diagnose 0 m).2.dest = -1) ∧
    (∀ j, j < k → ∀ m ∈ s.dataBuf j, m.dest = -1 ∨ (0 ≤ m.dest ∧ m.dest < (k : Int))) ∧
    (∀ d, Event.forOther 0 d ∉ s.out) := by
  obtain ⟨hbuf, _, _, hoth⟩ := reachable_inv k hk s h
  refine ⟨?_, ?_, hoth⟩
  · intro m hm
    have hg := hbuf _ (predIdx_lt k 0 hk (by omega)) m hm
    obtain ⟨_, _, hd⟩ := hg
    rw [predIdx_eq k 0 hk (by omega)] at hd
    simp only [if_true] at hd
    have hd' : m.dest = -1 ∨ m.dest = 0 := by omega
    refine ⟨hd', ?_⟩
    rw [diagnose_snd]
    rcases hd' with h1 | h1
    · simp [h1]
    · simp [h1, emptyMessage]
  · intro j hj m hm
    obtain ⟨_, _, hd⟩ := hbuf j hj m hm
    omega

/-- Witness for C10: three nodes, after node 0 has sent `a` to node 2. -/
theorem parent_reads_empty_or_own_witness :
    (1 ≤ 3 ∧ Reachable 3 (parkedOut 0 (policy 3 0 ⟨[97, 10], some 2⟩ emptyMessage)
      [branchEvent 0 emptyMessage,
       Event.wrote 0 (policy 3 0 ⟨[97, 10], some 2⟩ emptyMessage), Event.passed 0])) ∧
    ((∀ m ∈ (parkedOut 0 (policy 3 0 ⟨[97, 10], some 2⟩ emptyMessage)
      [branchEvent 0 emptyMessage,
       Event.wrote 0 (policy 3 0 ⟨[97, 10], some 2⟩ emptyMessage),
       Event.passed 0]).dataBuf (predIdx 3 0),
      (m.dest = -1 ∨ m.dest = 0) ∧ (diagnose 0 m).2.dest = -1) ∧
    (∀ j, j < 3 → ∀ m ∈ (parkedOut 0 (policy 3 0 ⟨[97, 10], some 2⟩ emptyMessage)
      [branchEvent 0 emptyMessage,
       Event.wrote 0 (policy 3 0 ⟨[97, 10], some 2⟩ emptyMessage),
       Event.passed 0]).dataBuf j, m.dest = -1 ∨ (0 ≤ m.dest ∧ m.dest < ((3 : Nat) : Int))) ∧
    (∀ d, Event.forOther 0 d ∉ (parkedOut 0 (policy 3 0 ⟨[97, 10], some 2⟩ emptyMessage)
      [branchEvent 0 emptyMessage,
       Event.wrote 0 (policy 3 0 ⟨[97, 10], some 2⟩ emptyMessage), Event.passed 0]).out)) :=
  ⟨⟨by decide, reachable_after_parent 3 (by decide) _⟩,
   parent_reads_empty_or_own 3 (by decide) _ (reachable_after_parent 3 (by decide) _)⟩

end OneBadApple
